import Mathlib

/-
  Verification of the path-addressable form store in `src/src/use-form-path.jsx`.

  The JavaScript value universe (the nested value / dirty / error / identity
  trees) is modelled by the inductive type `JVal`.  The lodash helpers used by
  the source are modelled over parsed paths:

    * `toPath`      - lodash path parsing (dot segments plus bracketed indices);
                      malformed path syntax is undefined behaviour per the spec,
                      so the scanner only has to agree with lodash on the
                      well-formed forms the store produces and consumes;
    * `lodashGet`   - `get(tree, path, default)`: the default is returned
                      exactly when the resolved value is `undefined` (modelled
                      by `JVal.undef`) or the path is empty;
    * `lodashSet`   - `set(tree, path, value)`: walks the path, keeps existing
                      object-like intermediates, replaces non-object-like ones
                      with a fresh `[]` or `{}` depending on whether the next
                      segment is an integer index, and assigns at the last
                      segment.  Assigning an array index beyond the current
                      length pads the skipped positions with `undefined`.
                      (lodash would additionally store a string-keyed property
                      on an array when the segment is not an integer index;
                      such properties are outside this model and the theorems
                      that need to avoid them assume `pathFits`.)

  `keyify`, the validator registry, the store state and every public store
  operation are direct transliterations of the source; comments on each
  definition point at the corresponding source lines.
-/

namespace UseFormPath

/-- JavaScript values as stored in the form trees.  `undef` is JavaScript
`undefined`; `null` is JavaScript `null`. -/
inductive JVal where
  | undef
  | null
  | bool (b : Bool)
  | num (n : Int)
  | str (s : String)
  | arr (elems : List JVal)
  | obj (fields : List (String × JVal))
  deriving Repr

/-- JavaScript `typeof v === 'object' && v !== null` (arrays included). -/
def objLike : JVal → Bool
  | .arr _ => true
  | .obj _ => true
  | _ => false

/-- JavaScript truthiness: `undefined`, `null`, `false`, `0` and `''` are
falsy; every other value (including empty arrays and objects) is truthy. -/
def truthy : JVal → Bool
  | .undef => false
  | .null => false
  | .bool b => b
  | .num n => n != 0
  | .str s => !s.isEmpty
  | .arr _ => true
  | .obj _ => true

/-- Decimal digit to character. -/
def digitChar : Nat → Char
  | 0 => '0' | 1 => '1' | 2 => '2' | 3 => '3' | 4 => '4'
  | 5 => '5' | 6 => '6' | 7 => '7' | 8 => '8' | 9 => '9'
  | _ => '*'

/-- Character to decimal digit; `10` marks a non-digit. -/
def digitVal : Char → Nat
  | '0' => 0 | '1' => 1 | '2' => 2 | '3' => 3 | '4' => 4
  | '5' => 5 | '6' => 6 | '7' => 7 | '8' => 8 | '9' => 9
  | _ => 10

def isDig (c : Char) : Bool := digitVal c < 10

/-- Decimal rendering of a natural number, digit list accumulator style with
a structural fuel (any fuel above the number itself is enough, see
`natStrAux_fuel`).  This is the canonical decimal form JavaScript produces
for array indices (`Object.keys` of an array, interpolation of a length). -/
def natStrAux : Nat → Nat → List Char → List Char
  | 0, _, acc => acc
  | fuel + 1, n, acc =>
      if n < 10 then digitChar n :: acc
      else natStrAux fuel (n / 10) (digitChar (n % 10) :: acc)

def natStr (n : Nat) : String := String.mk (natStrAux (n + 1) n [])

/-- Character-list form of the canonical decimal test below. -/
def canonChars : List Char → Bool
  | [] => false
  | ['0'] => true
  | c :: cs => isDig c && c != '0' && cs.all isDig

/-- lodash `isIndex` on an unbounded key: the canonical decimal form
`0 | [1-9][0-9]*` (the `MAX_SAFE_INTEGER` bound is out of scope). -/
def isIndexKey (s : String) : Bool :=
  canonChars s.toList

/-- Numeric value of a decimal key (used only on keys passing `isIndexKey`). -/
def parseIdx (s : String) : Nat :=
  s.toList.foldl (fun a c => a * 10 + digitVal c) 0

/-- Field lookup on a JavaScript object (first matching key). -/
def jfield : List (String × JVal) → String → JVal
  | [], _ => .undef
  | (k', v) :: fs, k => if k' = k then v else jfield fs k

/-- Field assignment on a JavaScript object: overwrite the existing key or
append a new one. -/
def setField : List (String × JVal) → String → JVal → List (String × JVal)
  | [], k, v => [(k, v)]
  | (k', v') :: fs, k, v =>
      if k' = k then (k', v) :: fs else (k', v') :: setField fs k v

/-- Array element assignment: in range replaces, beyond the length pads the
gap with `undefined` (JavaScript `a[i] = v` on a short array). -/
def setIdx (xs : List JVal) (i : Nat) (v : JVal) : List JVal :=
  if i < xs.length then xs.set i v
  else xs ++ List.replicate (i - xs.length) .undef ++ [v]

/-- One step of property access, `v[k]`.  Array access with a non-index key
yields `undefined` (the `length` property is outside the model; no store path
reads it). -/
def jchild : JVal → String → JVal
  | .obj fs, k => jfield fs k
  | .arr xs, k => if isIndexKey k then xs.getD (parseIdx k) .undef else .undef
  | _, _ => (.undef)

/-- One step of property assignment, `v[k] = x` (lodash `assignValue`).
Assignment on a primitive has no persistent effect; assignment of a
non-index key on an array is outside the model (see the header comment). -/
def jassign : JVal → String → JVal → JVal
  | .obj fs, k, v => .obj (setField fs k v)
  | .arr xs, k, v =>
      if isIndexKey k then .arr (setIdx xs (parseIdx k) v) else .arr xs
  | t, _, _ => t

/-- Resolve a parsed path against a tree; missing steps give `undefined`. -/
def resolve : JVal → List String → JVal
  | t, [] => t
  | t, k :: rest => resolve (jchild t k) rest

/-- lodash `get(tree, path, default)`: the default is produced when the
resolution is `undefined` (or when the parsed path is empty, as with
lodash's `stringToPath('') = []`). -/
def lodashGet (t : JVal) (segs : List String) (dflt : JVal) : JVal :=
  if segs.isEmpty then dflt
  else
    match resolve t segs with
    | .undef => dflt
    | r => r

/-- lodash `set(tree, path, value)` (`baseSet`): existing object-like
intermediates are kept, other intermediates are replaced by `[]` when the
next segment is an integer index and by `{}` otherwise; the root is returned
unchanged when it is not object-like (the top-level `isObject` guard). -/
def lodashSet : JVal → List String → JVal → JVal
  | t, [], _ => t
  | t, [k], v => jassign t k v
  | t, k :: k2 :: rest, v =>
      let c := jchild t k
      let c' := if objLike c then c
                else if isIndexKey k2 then .arr [] else .obj []
      jassign t k (lodashSet c' (k2 :: rest) v)

mutual
/-- Path parsing, main scanner: dot-separated segments; `[` opens a bracketed
segment.  Well-formed paths only (malformed syntax is undefined behaviour
per the spec). -/
def toPathCore : List Char → List Char → List (List Char)
  | [], cur => if cur.isEmpty then [] else [cur]
  | '.' :: rest, cur =>
      if cur.isEmpty then toPathCore rest [] else cur :: toPathCore rest []
  | '[' :: rest, cur =>
      (if cur.isEmpty then [] else [cur]) ++ bracketCore rest []
  | c :: rest, cur => toPathCore rest (cur ++ [c])
/-- Path parsing, inside a bracketed segment: accumulate until `]`. -/
def bracketCore : List Char → List Char → List (List Char)
  | [], cur => if cur.isEmpty then [] else [cur]
  | ']' :: rest, cur => cur :: toPathCore rest []
  | c :: rest, cur => bracketCore rest (cur ++ [c])
end

/-- lodash `stringToPath`, restricted to the well-formed paths the store
uses (`a.b`, `items[2]`, `k.0.b`, ...). -/
def toPath (s : String) : List String :=
  (toPathCore s.toList []).map String.mk

/-- The walk of `lodashSet` along this path never assigns a non-index key
into an existing array (the one lodash behaviour, string properties on
arrays, that `jassign` does not model).  Intermediates that `lodashSet`
would replace with a fresh container put no constraint on the path. -/
def pathFits : JVal → List String → Bool
  | _, [] => true
  | .arr xs, k :: rest => isIndexKey k && pathFits (jchild (.arr xs) k) rest
  | .obj fs, k :: rest => pathFits (jfield fs k) rest
  | _, _ :: _ => true

/-- Dot-joined rendering of a segment list (`["a","0","b"] = "a.0.b"`),
matching the strings `keyify` emits. -/
def dotted : List String → String
  | [] => ""
  | [k] => k
  | k :: p => k ++ "." ++ dotted p

mutual
/-- Transliteration of `keyify` (use-form-path.jsx:14-27).  `Object.keys`
of an object iterates its fields in order; of an array it yields the decimal
indices.  The source's first branch (`Array.isArray(obj[el]) && obj[el].length`)
builds bracket-notation paths inside a `forEach` whose callback results are
discarded, so it contributes nothing to the result and is omitted here; a
non-empty array then falls through to the `typeof obj[el] === 'object'`
branch and is recursed into like an object, producing dot-separated decimal
index segments. -/
def keyify : JVal → String → List String
  | .obj fs, pre => keyifyFields fs pre
  | .arr xs, pre => keyifyElems xs 0 pre
  | _, _ => []
def keyifyFields : List (String × JVal) → String → List String
  | [], _ => []
  | (k, v) :: fs, pre =>
      (if objLike v then keyify v (pre ++ k ++ ".") else [pre ++ k])
        ++ keyifyFields fs pre
def keyifyElems : List JVal → Nat → String → List String
  | [], _, _ => []
  | v :: xs, i, pre =>
      (if objLike v then keyify v (pre ++ natStr i ++ ".") else [pre ++ natStr i])
        ++ keyifyElems xs (i + 1) pre
end

mutual
/-- Segment-level counterpart of `keyify`: the parsed leaf paths, used to
reason about the enumeration without string parsing. -/
def leafSegs : JVal → List (List String)
  | .obj fs => leafSegsFields fs
  | .arr xs => leafSegsElems xs 0
  | _ => []
def leafSegsFields : List (String × JVal) → List (List String)
  | [] => []
  | (k, v) :: fs =>
      (if objLike v then (leafSegs v).map (k :: ·) else [[k]])
        ++ leafSegsFields fs
def leafSegsElems : List JVal → Nat → List (List String)
  | [], _ => []
  | v :: xs, i =>
      (if objLike v then (leafSegs v).map (natStr i :: ·) else [[natStr i]])
        ++ leafSegsElems xs (i + 1)
end

/-- The key is a plain object key: non-empty, free of the path
metacharacters `.`, `[`, `]`, and not a decimal index. -/
def plainKey (s : String) : Bool :=
  (!s.isEmpty) && s.toList.all (fun c => c != '.' && c != '[' && c != ']')
    && !isIndexKey s

def keyAbsent (k : String) : List (String × JVal) → Bool
  | [] => true
  | (k', _) :: fs => (k' != k) && keyAbsent k fs

mutual
/-- Well-formed value tree: object keys are plain and pairwise distinct
(JavaScript objects cannot repeat keys), and `undefined` is not stored. -/
def cleanTree : JVal → Bool
  | .obj fs => cleanFields fs
  | .arr xs => cleanElems xs
  | .undef => false
  | _ => true
def cleanFields : List (String × JVal) → Bool
  | [] => true
  | (k, v) :: fs => plainKey k && keyAbsent k fs && cleanTree v && cleanFields fs
def cleanElems : List JVal → Bool
  | [] => true
  | v :: xs => cleanTree v && cleanElems xs
end

/-- The `validate` argument of `subscribe` (jsx:134): a function, an array
whose entries may (`some f`) or may not (`none`) be functions, or any other
JavaScript value with the recorded truthiness. -/
inductive VArg (F : Type) where
  | fn (f : F)
  | list (elems : List (Option F))
  | scalar (isTruthy : Bool)

/-- The helper `push` (jsx:30-34): `container[path] = container[path] || []`
then `push`.  The container is a plain object keyed by the raw path string
and every read defaults an absent key to `[]`, so it is modelled as a total
function into lists. -/
def pushValidator {F : Type} (c : String → List F) (path : String) (f : F) :
    String → List F :=
  Function.update c path (c path ++ [f])

/-- The helper `remove` (jsx:36-42): keep only the functions not identical
(`!==`) to the one being removed; every occurrence of it goes. -/
def removeValidator {F : Type} [DecidableEq F] (c : String → List F)
    (path : String) (f : F) : String → List F :=
  Function.update c path ((c path).filter (fun g => g != f))

/-- Registration walk over an array `validate` (jsx:135-142): `forEach`
pushes each function entry; the first non-function entry throws, keeping
the pushes already made.  The `Bool` records whether it threw. -/
def registerElems {F : Type} (c : String → List F) (path : String) :
    List (Option F) → (String → List F) × Bool
  | [] => (c, false)
  | some f :: es => registerElems (pushValidator c path f) path es
  | none :: _ => (c, true)

/-- The registration phase of `subscribe` (jsx:134-148).  A non-empty array
is walked entry by entry (`registerElems`); a bare function is pushed by the
second `if`; anything else - an empty array, or a non-function non-array
value of either truthiness - falls through both `if`s untouched. -/
def registerValidate {F : Type} (c : String → List F) (path : String) :
    VArg F → (String → List F) × Bool
  | .list es => if es.isEmpty then (c, false) else registerElems c path es
  | .fn f => (pushValidator c path f, false)
  | .scalar _ => (c, false)

/-- Disposal walk over an array `validate` (jsx:156-159): `remove` each
entry; a non-function entry compares unequal to every stored validator and
removes nothing. -/
def disposeElems {F : Type} [DecidableEq F] (c : String → List F)
    (path : String) : List (Option F) → (String → List F)
  | [] => c
  | some f :: es => disposeElems (removeValidator c path f) path es
  | none :: es => disposeElems c path es

/-- The disposer returned by `subscribe` (jsx:155-163): a non-empty array
argument removes each of its entries; any other argument (a function, a
scalar, an empty array) goes to `remove` directly, where a non-function
value compares unequal to every stored validator and removes nothing. -/
def disposeValidate {F : Type} [DecidableEq F] (c : String → List F)
    (path : String) : VArg F → (String → List F)
  | .list es => if es.isEmpty then c else disposeElems c path es
  | .fn f => removeValidator c path f
  | .scalar _ => c

/-- The mutable refs of `FormProvider` (jsx:44-68).  `cloneDeep` is the
identity on pure values, so `initState` and `formValue` both start as the
construction-time `initValue`.  Observers (`forceUpdate` callbacks) are
opaque identifiers; an operation also returns the ordered list of observer
identifiers it fired. -/
structure FormState where
  initState : JVal
  formValue : JVal
  formDirty : JVal
  formError : JVal
  formUniqueIds : JVal
  localValidators : String → List (JVal → JVal)
  formValid : Bool
  invalidPathSet : Finset String
  forceUpdates : List Nat
  forceUpdatesByPath : String → List Nat

/-- Construction of the provider's state from `initValue` (jsx:44-68). -/
def initFormState (initValue : JVal) : FormState where
  initState := initValue
  formValue := initValue
  formDirty := .obj []
  formError := .obj []
  formUniqueIds := .obj []
  localValidators := fun _ => []
  formValid := true
  invalidPathSet := ∅
  forceUpdates := []
  forceUpdatesByPath := fun _ => []

/-- `getFormValues` (jsx:71-72): a falsy (empty) path returns the whole
tree, otherwise lodash `get` with default `''`. -/
def getFormValues (s : FormState) (path : String) : JVal :=
  if path.isEmpty then s.formValue
  else lodashGet s.formValue (toPath path) (.str "")

/-- `getFormDirty` (jsx:73-74). -/
def getFormDirty (s : FormState) (path : String) : JVal :=
  if path.isEmpty then s.formDirty
  else lodashGet s.formDirty (toPath path) (.str "")

/-- `getFormError` (jsx:75-76), default `false`. -/
def getFormError (s : FormState) (path : String) : JVal :=
  if path.isEmpty then s.formError
  else lodashGet s.formError (toPath path) (.bool false)

/-- `getFormValid` (jsx:78). -/
def getFormValid (s : FormState) : Bool := s.formValid

/-- `setFormDirty` (jsx:80). -/
def setFormDirty (s : FormState) (path : String) (v : JVal) : FormState :=
  { s with formDirty := lodashSet s.formDirty (toPath path) v }

/-- `setFormError` (jsx:81). -/
def setFormError (s : FormState) (path : String) (v : JVal) : FormState :=
  { s with formError := lodashSet s.formError (toPath path) v }

/-- The lookup `get(localValidators.current, path, [])` (jsx:86).  The
registry object is keyed by raw path strings while `get` parses the path,
so only a single-segment path finds its own entry.  For a two-segment path
`k[n]` whose first segment is a registered key and whose index lies within
that key's list, lodash resolves to the single function and the subsequent
`.reduce` throws a TypeError; `arrayPush` reaches that case when a
validator is registered at the array's own path.  This definition returns
`[]` there and so does not execute the crash; `regGet` keeps the shape of
the real resolution, and the store operations built from this definition
describe the source only where that resolution is not a lone function. -/
def lookupValidators (c : String → List (JVal → JVal)) (path : String) :
    List (JVal → JVal) :=
  match toPath path with
  | [k] => c k
  | _ => []

/-- The error message computed by `runLocalValidators` (jsx:86-89): fold the
path's validators with JavaScript `||` starting from `''` (the first truthy
message wins, else the last validator's result). -/
def localErrorMessage (s : FormState) (path : String) (value : JVal) : JVal :=
  (lookupValidators s.localValidators path).foldl
    (fun acc validator => if truthy acc then acc else validator value)
    (.str "")

/-- `runLocalValidators` (jsx:85-92): compute the folded message, then write
it into the error tree at the path. -/
def runLocalValidators (s : FormState) (path : String) (value : JVal) :
    FormState :=
  setFormError s path (localErrorMessage s path value)

/-- The loop over the context validator's error paths (jsx:106-110): for
each enumerated `errorPath`, add `path` - the path being set, per the
source's line 108, not `errorPath` - to the invalid path set and write the
enumerated message into the error tree. -/
def mergeContextErrors (path : String) (errorObject : JVal) (s : FormState) :
    FormState :=
  (keyify errorObject "").foldl
    (fun (s : FormState) errorPath =>
      let newErrorMessage := lodashGet errorObject (toPath errorPath) .undef
      let s := { s with invalidPathSet := insert path s.invalidPathSet }
      setFormError s errorPath newErrorMessage)
    s

/-- `setFormValue` (jsx:95-132); `cv` is the provider's optional context
validator. -/
def setFormValue (cv : Option (JVal → JVal → JVal)) (s : FormState)
    (path : String) (value : JVal) : FormState × List Nat :=
  let s := { s with formValue := lodashSet s.formValue (toPath path) value }
  let s := runLocalValidators s path value
  let s :=
    match cv with
    | some contextValidator =>
        mergeContextErrors path (contextValidator s.formValue s.formError) s
    | none => s
  let errorMessage := lodashGet s.formError (toPath path) .undef
  let s :=
    if truthy errorMessage then
      { s with invalidPathSet := insert path s.invalidPathSet }
    else
      { s with invalidPathSet := s.invalidPathSet.erase path }
  let s := { s with formValid := s.invalidPathSet.card == 0 }
  (s, s.forceUpdates ++ s.forceUpdatesByPath path)

/-- `subscribe` (jsx:134-164), state effects: register the validators
(possibly throwing part-way through an array argument, in which case the
later writes never run), then re-apply value, dirty and error at the path.
The returned disposer is modelled by `disposeValidate`. -/
def subscribeStore (cv : Option (JVal → JVal → JVal)) (s : FormState)
    (path : String) (validate : VArg (JVal → JVal)) : FormState :=
  let rg := registerValidate s.localValidators path validate
  let s := { s with localValidators := rg.1 }
  if rg.2 then s
  else
    let s := (setFormValue cv s path (getFormValues s path)).1
    let s := setFormDirty s path (getFormDirty s path)
    let s := setFormError s path (getFormError s path)
    s

/-- `setAllFormDirty` (jsx:166-174): enumerate the dirty tree once, set
every enumerated path and fire its path-scoped observers. -/
def setAllFormDirty (s : FormState) (b : Bool) : FormState × List Nat :=
  (keyify s.formDirty "").foldl
    (fun (acc : FormState × List Nat) path =>
      let s := setFormDirty acc.1 path (.bool b)
      (s, acc.2 ++ s.forceUpdatesByPath path))
    (s, [])

/-- `initialize` (jsx:177-193). -/
def initializeStore (cv : Option (JVal → JVal → JVal)) (s : FormState)
    (newFormState : JVal) (replaceInitState : Bool) (keepDirty : Bool) :
    FormState × List Nat :=
  let s := if replaceInitState then { s with initState := newFormState } else s
  let st :=
    (keyify newFormState "").foldl
      (fun (acc : FormState × List Nat) path =>
        let r := setFormValue cv acc.1 path
          (lodashGet newFormState (toPath path) .undef)
        (r.1, acc.2 ++ r.2))
      (s, [])
  if keepDirty then st
  else
    let r := setAllFormDirty st.1 false
    (r.1, st.2 ++ r.2)

/-- `reset` (jsx:197-198). -/
def resetStore (cv : Option (JVal → JVal → JVal)) (s : FormState) :
    FormState × List Nat :=
  initializeStore cv s s.initState false false

/-- `submit` (jsx:202-209): dirty everything, then snapshot
`(valid, values, errors)`. -/
def submitStore (s : FormState) : FormState × List Nat × (Bool × JVal × JVal) :=
  let r := setAllFormDirty s true
  (r.1, r.2, (getFormValid r.1, getFormValues r.1 "", getFormError r.1 ""))

/-- `arrayPush` (jsx:211-224).  The JavaScript default `value = null` is the
caller passing `.null`; `if (value)` is a truthiness test, so a falsy value
writes nothing.  The path-scoped observers for `path` always fire. -/
def arrayPush (cv : Option (JVal → JVal → JVal)) (s : FormState)
    (path : String) (value : JVal) : FormState × List Nat :=
  let currentValue := lodashGet s.formValue (toPath path) .undef
  let currentArrayLength :=
    match currentValue with
    | .arr xs => xs.length
    | _ => 0
  let r :=
    if truthy value then
      setFormValue cv s (path ++ "[" ++ natStr currentArrayLength ++ "]") value
    else (s, [])
  (r.1, r.2 ++ r.1.forceUpdatesByPath path)

/-- The in-place `get(container, path)` / `pullAt(array, index)` pair of
`arrayRemove` (jsx:234-239), functionally: when the path resolves to an
array, write back the array with the indexed element removed; otherwise
`pullAt`'s `array && array.length` guard makes it a no-op.  An out-of-range
index removes nothing, as does `splice` past the end - both match
`List.eraseIdx`. -/
def pullAtTree (t : JVal) (segs : List String) (index : Nat) : JVal :=
  match lodashGet t segs .undef with
  | .arr xs => lodashSet t segs (.arr (xs.eraseIdx index))
  | _ => t

/-- `arrayRemove` (jsx:226-244): throw unless the current value at the path
is an array, otherwise remove the indexed element from all four trees and
fire the path-scoped observers. -/
def arrayRemove (s : FormState) (path : String) (index : Nat) :
    Except String (FormState × List Nat) :=
  let currentValue := lodashGet s.formValue (toPath path) .undef
  match currentValue with
  | .arr _ =>
      .ok ({ s with
              formValue := pullAtTree s.formValue (toPath path) index
              formError := pullAtTree s.formError (toPath path) index
              formDirty := pullAtTree s.formDirty (toPath path) index
              formUniqueIds := pullAtTree s.formUniqueIds (toPath path) index },
            s.forceUpdatesByPath path)
  | _ => .error "You are not removing from an array: %s"

/-- One public store operation, as exposed through the context object
(jsx:280-302): `updateValue` (= `setFormValue`), `updateDirty`
(= `setFormDirty`), `initialize`, `reset`, `submit`, `arrayPush`,
`arrayRemove`, and `subscribe` (whose re-applied dirty / error writes are
the `setDirty` / `setError` passthrough of the claim).  A throwing
operation leaves the state as it was at the throw. -/
inductive FormOp where
  | setValueOp (path : String) (value : JVal)
  | setDirtyOp (path : String) (value : JVal)
  | subscribeOp (path : String) (validate : VArg (JVal → JVal))
  | initializeOp (newFormState : JVal) (replaceInitState : Bool) (keepDirty : Bool)
  | resetOp
  | submitOp
  | arrayPushOp (path : String) (value : JVal)
  | arrayRemoveOp (path : String) (index : Nat)

/-- Interpretation of a public operation on the store state. -/
def runOp (cv : Option (JVal → JVal → JVal)) (s : FormState) :
    FormOp → FormState
  | .setValueOp p v => (setFormValue cv s p v).1
  | .setDirtyOp p v => setFormDirty s p v
  | .subscribeOp p va => subscribeStore cv s p va
  | .initializeOp t r k => (initializeStore cv s t r k).1
  | .resetOp => (resetStore cv s).1
  | .submitOp => (submitStore s).1
  | .arrayPushOp p v => (arrayPush cv s p v).1
  | .arrayRemoveOp p i =>
      match arrayRemove s p i with
      | .ok r => r.1
      | .error _ => s

end UseFormPath

namespace UseFormPath

theorem strToList_append (a b : String) : (a ++ b).toList = a.toList ++ b.toList := by
  cases a; cases b; rfl

theorem strMk_toList (s : String) : String.mk s.toList = s := rfl

theorem digitVal_digitChar {r : Nat} (h : r < 10) : digitVal (digitChar r) = r := by
  interval_cases r <;> rfl

theorem isDig_digitChar {r : Nat} (h : r < 10) : isDig (digitChar r) = true := by
  interval_cases r <;> rfl

theorem digitChar_ne_zero {r : Nat} (h1 : 1 ≤ r) (h2 : r < 10) :
    digitChar r ≠ '0' := by
  interval_cases r <;> simp [digitChar]

theorem digitChar_digitVal {c : Char} (h : isDig c = true) :
    digitChar (digitVal c) = c := by
  have h' : digitVal c < 10 := by
    simpa [isDig, decide_eq_true_eq] using h
  unfold digitVal at h' ⊢
  split at h' <;> simp_all <;> rfl

theorem natStrAux_append (f : Nat) : ∀ (n : Nat) (acc : List Char),
    natStrAux f n acc = natStrAux f n [] ++ acc := by
  induction f with
  | zero => intro n acc; rfl
  | succ f ih =>
      intro n acc
      by_cases h : n < 10
      · simp [natStrAux, h]
      · simp only [natStrAux, if_neg h]
        rw [ih (n / 10) [digitChar (n % 10)], ih (n / 10) (digitChar (n % 10) :: acc)]
        simp

theorem natStrAux_congr : ∀ (f f' n : Nat), n < f → n < f' →
    ∀ acc, natStrAux f n acc = natStrAux f' n acc := by
  intro f
  induction f with
  | zero => intro f' n h; omega
  | succ f ih =>
      intro f' n h h' acc
      cases f' with
      | zero => omega
      | succ f' =>
          by_cases h10 : n < 10
          · simp [natStrAux, h10]
          · simp only [natStrAux, if_neg h10]
            exact ih f' (n / 10) (by omega) (by omega) _

def natDigits (n : Nat) : List Char := natStrAux (n + 1) n []

theorem natStr_eq_mk (n : Nat) : natStr n = String.mk (natDigits n) := rfl

theorem canonChars_cons_of {c : Char} {cs : List Char} (h1 : isDig c = true)
    (h2 : c ≠ '0') (h3 : cs.all isDig = true) : canonChars (c :: cs) = true := by
  unfold canonChars
  split <;> simp_all [bne_iff_ne]

theorem natDigits_eq (n : Nat) :
    natDigits n = if n < 10 then [digitChar n]
      else natDigits (n / 10) ++ [digitChar (n % 10)] := by
  by_cases h : n < 10
  · simp [natDigits, natStrAux, h]
  · have h1 : natDigits n = natStrAux n (n / 10) [digitChar (n % 10)] := by
      simp only [natDigits, natStrAux, if_neg h]
    rw [h1, natStrAux_append,
      natStrAux_congr n (n / 10 + 1) (n / 10) (by omega) (by omega) [], if_neg h]
    rfl

theorem natDigits_ne_nil (n : Nat) : natDigits n ≠ [] := by
  rw [natDigits_eq]
  split <;> simp

theorem natDigits_all_isDig (n : Nat) : (natDigits n).all isDig = true := by
  induction n using Nat.strong_induction_on with
  | _ n ih =>
      rw [natDigits_eq]
      by_cases h : n < 10
      · simp [h, isDig_digitChar]
      · simp [if_neg h, List.all_append, ih (n / 10) (by omega),
          isDig_digitChar (Nat.mod_lt n (by omega))]

theorem natDigits_head_ne_zero (n : Nat) (hn : 1 ≤ n) :
    ∀ c cs, natDigits n = c :: cs → c ≠ '0' := by
  induction n using Nat.strong_induction_on with
  | _ n ih =>
      intro c cs heq
      rw [natDigits_eq] at heq
      by_cases h : n < 10
      · simp only [if_pos h] at heq
        cases heq
        exact digitChar_ne_zero hn h
      · simp only [if_neg h] at heq
        obtain ⟨c', cs', hsh⟩ : ∃ c' cs', natDigits (n / 10) = c' :: cs' := by
          cases hh : natDigits (n / 10) with
          | nil => exact absurd hh (natDigits_ne_nil _)
          | cons a b => exact ⟨a, b, rfl⟩
        rw [hsh] at heq
        simp only [List.cons_append, List.cons.injEq] at heq
        obtain ⟨rfl, -⟩ := heq
        exact ih (n / 10) (by omega) (by omega) c' cs' hsh

theorem isIndexKey_natStr (n : Nat) : isIndexKey (natStr n) = true := by
  unfold isIndexKey natStr
  show canonChars (natDigits n) = true
  by_cases h0 : n = 0
  · subst h0; rfl
  · obtain ⟨c, cs, hsh⟩ : ∃ c cs, natDigits n = c :: cs := by
      cases hh : natDigits n with
      | nil => exact absurd hh (natDigits_ne_nil _)
      | cons a b => exact ⟨a, b, rfl⟩
    have hall := natDigits_all_isDig n
    rw [hsh] at hall ⊢
    have hc : c ≠ '0' := natDigits_head_ne_zero n (by omega) c cs hsh
    simp only [List.all_cons, Bool.and_eq_true] at hall
    exact canonChars_cons_of hall.1 hc hall.2

theorem parseL_natDigits (n : Nat) : ∀ a : Nat,
    (natDigits n).foldl (fun x c => x * 10 + digitVal c) a
      = a * 10 ^ (natDigits n).length + n := by
  induction n using Nat.strong_induction_on with
  | _ n ih =>
      intro a
      rw [natDigits_eq]
      by_cases h : n < 10
      · simp [h, digitVal_digitChar h]
      · simp only [if_neg h, List.foldl_append, List.length_append]
        rw [ih (n / 10) (by omega) a]
        simp only [List.foldl_cons, List.foldl_nil, List.length_cons,
          List.length_nil]
        rw [digitVal_digitChar (Nat.mod_lt n (by omega))]
        ring_nf
        omega

theorem parseIdx_natStr (n : Nat) : parseIdx (natStr n) = n := by
  unfold parseIdx natStr
  show (natDigits n).foldl (fun x c => x * 10 + digitVal c) 0 = n
  rw [parseL_natDigits n 0]
  simp

theorem natStr_injective {m n : Nat} (h : natStr m = natStr n) : m = n := by
  have := parseIdx_natStr m
  rw [h, parseIdx_natStr n] at this
  omega

end UseFormPath

namespace UseFormPath

theorem parseL_ge (l : List Char) : ∀ a : Nat,
    a ≤ l.foldl (fun x c => x * 10 + digitVal c) a := by
  induction l with
  | nil => intro a; exact le_refl a
  | cons c cs ih =>
      intro a
      exact le_trans (by omega) (ih (a * 10 + digitVal c))

theorem digitVal_lt_of_isDig {c : Char} (h : isDig c = true) : digitVal c < 10 := by
  simpa [isDig, decide_eq_true_eq] using h

theorem digitVal_pos_of_ne_zero {c : Char} (h : isDig c = true) (hc : c ≠ '0') :
    1 ≤ digitVal c := by
  rcases Nat.eq_zero_or_pos (digitVal c) with h0 | h1
  · exfalso
    apply hc
    have := digitChar_digitVal h
    rw [h0] at this
    exact this.symm
  · exact h1

theorem natDigits_parseL {l : List Char} (h : canonChars l = true) :
    natDigits (l.foldl (fun x c => x * 10 + digitVal c) 0) = l := by
  induction l using List.reverseRecOn with
  | nil => simp [canonChars] at h
  | append_singleton ys c ih =>
      cases ys with
      | nil =>
          by_cases hc : c = '0'
          · subst hc; rfl
          · unfold canonChars at h
            split at h
            · simp_all
            · simp_all
            · simp only [Bool.and_eq_true, bne_iff_ne] at h
              obtain ⟨⟨hd, -⟩, -⟩ :
                  (isDig c = true ∧ ¬c = '0') ∧ [].all isDig = true := by
                simp_all
              have hlt : digitVal c < 10 := digitVal_lt_of_isDig hd
              simp only [List.nil_append, List.foldl_cons, List.foldl_nil,
                Nat.zero_mul, Nat.zero_add]
              rw [natDigits_eq, if_pos hlt, digitChar_digitVal hd]
      | cons d ys' =>
          simp only [List.cons_append]
          have hsh : canonChars (d :: (ys' ++ [c])) = true := by
            simpa using h
          unfold canonChars at hsh
          split at hsh
          · simp_all
          · exfalso
            rename_i heq
            simp only [List.cons.injEq] at heq
            exact absurd heq.2 (by simp)
          · rename_i c0 cs0 heq
            simp only [List.cons.injEq] at heq
            obtain ⟨rfl, rfl⟩ := heq
            simp only [Bool.and_eq_true, bne_iff_ne] at hsh
            obtain ⟨⟨hd, hdz⟩, hall⟩ := hsh
            rw [List.all_append] at hall
            simp only [Bool.and_eq_true, List.all_cons, List.all_nil,
              Bool.and_true] at hall
            obtain ⟨hys, hc⟩ := hall
            have hcanys : canonChars (d :: ys') = true :=
              canonChars_cons_of hd hdz hys
            have ihm := ih hcanys
            set m := (d :: ys').foldl (fun x c => x * 10 + digitVal c) 0 with hm
            have hm1 : 1 ≤ m := by
              have h1 : digitVal d ≤ (ys').foldl (fun x c => x * 10 + digitVal c) (digitVal d) :=
                parseL_ge ys' (digitVal d)
              have h2 : 1 ≤ digitVal d := digitVal_pos_of_ne_zero hd hdz
              simp only [hm, List.foldl_cons, Nat.zero_mul, Nat.zero_add]
              omega
            have hfold : (d :: (ys' ++ [c])).foldl (fun x c => x * 10 + digitVal c) 0
                = m * 10 + digitVal c := by
              simp only [hm, List.foldl_cons, List.foldl_append, List.foldl_nil]
            rw [hfold]
            have hclt : digitVal c < 10 := digitVal_lt_of_isDig hc
            rw [natDigits_eq, if_neg (by omega)]
            have hdiv : (m * 10 + digitVal c) / 10 = m := by omega
            have hmod : (m * 10 + digitVal c) % 10 = digitVal c := by omega
            rw [hdiv, hmod, ihm, digitChar_digitVal hc]
            simp

theorem natStr_parseIdx {s : String} (h : isIndexKey s = true) :
    natStr (parseIdx s) = s := by
  unfold isIndexKey at h
  have h2 := natDigits_parseL h
  show String.mk (natDigits (parseIdx s)) = s
  unfold parseIdx
  rw [h2]
  exact strMk_toList s

theorem canonKey_inj {a b : String} (ha : isIndexKey a = true)
    (hb : isIndexKey b = true) (hp : parseIdx a = parseIdx b) : a = b := by
  rw [← natStr_parseIdx ha, ← natStr_parseIdx hb, hp]

end UseFormPath

namespace UseFormPath

theorem jfield_setField_self (fs : List (String × JVal)) (k : String) (v : JVal) :
    jfield (setField fs k v) k = v := by
  induction fs with
  | nil => simp [setField, jfield]
  | cons p fs ih =>
      obtain ⟨q, w⟩ := p
      by_cases h : q = k
      · subst h; simp [setField, jfield]
      · simp [setField, jfield, h, ih]

theorem jfield_setField_ne (fs : List (String × JVal)) {k q : String}
    (h : q ≠ k) (v : JVal) : jfield (setField fs k v) q = jfield fs q := by
  induction fs with
  | nil =>
      simp only [setField, jfield]
      rw [if_neg (fun hh => h hh.symm)]
  | cons p fs ih =>
      obtain ⟨r, w⟩ := p
      by_cases hr : r = k
      · subst hr
        simp only [setField, if_pos rfl, jfield]
        rw [if_neg (fun hh => h hh.symm), if_neg (fun hh => h hh.symm)]
      · simp only [setField, if_neg hr, jfield]
        by_cases hq : r = q
        · simp [hq]
        · simp [hq, ih]

theorem getD_setIdx_self (xs : List JVal) (i : Nat) (v : JVal) :
    (setIdx xs i v).getD i .undef = v := by
  unfold setIdx
  by_cases h : i < xs.length
  · simp [h, List.getD_eq_getElem?_getD, List.getElem?_set_self]
  · rw [if_neg h, List.getD_eq_getElem?_getD, List.append_assoc,
      List.getElem?_append_right (by omega),
      List.getElem?_append_right (by simp)]
    simp

theorem getD_setIdx_ne (xs : List JVal) {i j : Nat} (h : i ≠ j) (v : JVal) :
    (setIdx xs j v).getD i .undef = xs.getD i .undef := by
  unfold setIdx
  by_cases hj : j < xs.length
  · simp [hj, List.getD_eq_getElem?_getD, List.getElem?_set_ne (Ne.symm h)]
  · rw [if_neg hj, List.getD_eq_getElem?_getD, List.getD_eq_getElem?_getD]
    by_cases hi : i < xs.length
    · rw [List.append_assoc, List.getElem?_append_left hi]
    · rw [List.append_assoc, List.getElem?_append_right (by omega)]
      rw [show xs[i]? = none from List.getElem?_eq_none (by omega)]
      by_cases hij : i - xs.length < j - xs.length
      · rw [List.getElem?_append_left (by simpa using hij)]
        simp [List.getElem?_replicate_of_lt hij]
      · rw [List.getElem?_append_right (by simp; omega)]
        simp only [List.length_replicate]
        rw [show ([v] : List JVal)[i - xs.length - (j - xs.length)]? = none from
          List.getElem?_eq_none (by simp; omega)]

end UseFormPath

namespace UseFormPath

theorem jchild_jassign_obj (fs : List (String × JVal)) (k : String) (v : JVal) :
    jchild (jassign (.obj fs) k v) k = v :=
  jfield_setField_self fs k v

theorem jchild_jassign_arr {k : String} (hk : isIndexKey k = true)
    (xs : List JVal) (v : JVal) : jchild (jassign (.arr xs) k v) k = v := by
  simp only [jassign, jchild, hk, if_true]
  exact getD_setIdx_self xs (parseIdx k) v

theorem jchild_jassign_ne {t : JVal} {a b : String} (hne : a ≠ b) (v : JVal) :
    jchild (jassign t b v) a = jchild t a := by
  cases t with
  | obj fs => exact jfield_setField_ne fs hne v
  | arr xs =>
      by_cases hb : isIndexKey b
      · by_cases ha : isIndexKey a
        · have hp : parseIdx a ≠ parseIdx b := fun hp => hne (canonKey_inj ha hb hp)
          simp only [jassign, jchild, ha, hb, if_true]
          exact getD_setIdx_ne xs hp v
        · simp [jassign, jchild, ha, hb]
      · simp [jassign, jchild, hb]
  | undef => rfl
  | null => rfl
  | bool b' => rfl
  | num n => rfl
  | str s => rfl

theorem objLike_jassign {t : JVal} (h : objLike t = true) (k : String) (v : JVal) :
    objLike (jassign t k v) = true := by
  cases t with
  | obj fs => rfl
  | arr xs => by_cases hk : isIndexKey k <;> simp [jassign, hk, objLike]
  | undef => simp [objLike] at h
  | null => simp [objLike] at h
  | bool b => simp [objLike] at h
  | num n => simp [objLike] at h
  | str s => simp [objLike] at h

theorem jassign_nonObj {t : JVal} (h : objLike t = false) (k : String) (v : JVal) :
    jassign t k v = t := by
  cases t <;> first | rfl | simp [objLike] at h

theorem jchild_nonObj {t : JVal} (h : objLike t = false) (k : String) :
    jchild t k = .undef := by
  cases t <;> first | rfl | simp [objLike] at h

theorem resolve_undef (segs : List String) : resolve .undef segs = .undef := by
  induction segs with
  | nil => rfl
  | cons k rest ih => simpa [resolve, jchild] using ih

theorem resolve_nonObj {t : JVal} (h : objLike t = false) {segs : List String}
    (hs : segs ≠ []) : resolve t segs = .undef := by
  cases segs with
  | nil => exact absurd rfl hs
  | cons k rest =>
      show resolve (jchild t k) rest = .undef
      rw [jchild_nonObj h, resolve_undef]

theorem pathFits_nil (t : JVal) : pathFits t [] = true := by cases t <;> rfl

theorem pathFits_arr (xs : List JVal) (k : String) (rest : List String) :
    pathFits (.arr xs) (k :: rest)
      = (isIndexKey k && pathFits (jchild (.arr xs) k) rest) := rfl

theorem pathFits_obj (fs : List (String × JVal)) (k : String) (rest : List String) :
    pathFits (.obj fs) (k :: rest) = pathFits (jfield fs k) rest := rfl

theorem pathFits_nonObj {t : JVal} (h : objLike t = false) (k : String)
    (rest : List String) : pathFits t (k :: rest) = true := by
  cases t <;> first | rfl | simp [objLike] at h

theorem pathFits_undef (segs : List String) : pathFits .undef segs = true := by
  cases segs <;> rfl

theorem pathFits_of_resolve {segs : List String} : ∀ {t : JVal},
    resolve t segs ≠ .undef → pathFits t segs = true := by
  induction segs with
  | nil => intro t _; exact pathFits_nil t
  | cons k rest ih =>
      intro t h
      have h' : resolve (jchild t k) rest ≠ .undef := h
      cases t with
      | arr xs =>
          by_cases hk : isIndexKey k = true
          · rw [pathFits_arr]
            simp [hk, ih h']
          · exfalso
            apply h
            show resolve (jchild (.arr xs) k) rest = .undef
            rw [show jchild (.arr xs) k = .undef by simp [jchild, hk]]
            exact resolve_undef rest
      | obj fs => exact ih h'
      | undef => rfl
      | null => rfl
      | bool b => rfl
      | num n => rfl
      | str s => rfl

theorem objLike_of_resolve {t : JVal} {segs : List String} (hs : segs ≠ [])
    (h : resolve t segs ≠ .undef) : objLike t = true := by
  by_cases ho : objLike t
  · exact ho
  · exact absurd (resolve_nonObj (by simpa using ho) hs) h

end UseFormPath

namespace UseFormPath

/-- Unfolding helper: `lodashSet` on a path of two or more segments. -/
theorem lodashSet_cons_cons (t : JVal) (k k2 : String) (rest : List String)
    (v : JVal) :
    lodashSet t (k :: k2 :: rest) v
      = jassign t k (lodashSet
          (if objLike (jchild t k) then jchild t k
           else if isIndexKey k2 then .arr [] else .obj [])
          (k2 :: rest) v) := rfl

theorem exists_cons_of_append_cons {α : Type} (pre : List α) (b : α)
    (q : List α) : ∃ m ms, pre ++ b :: q = m :: ms := by
  cases pre with
  | nil => exact ⟨b, q, rfl⟩
  | cons x xs => exact ⟨x, xs ++ b :: q, rfl⟩

/-- Writing along a path and reading it back: the write is visible, provided
the root is object-like (lodash's top-level `isObject` guard), the walk
never hits an array with a non-index segment (`pathFits`), and the path is
non-empty. -/
theorem resolve_lodashSet_self : ∀ (segs : List String) {t : JVal} (v : JVal),
    objLike t = true → pathFits t segs = true → segs ≠ [] →
    resolve (lodashSet t segs v) segs = v := by
  intro segs
  induction segs with
  | nil => intro t v _ _ h; exact absurd rfl h
  | cons k rest ih =>
      intro t v ho hf _
      cases rest with
      | nil =>
          show resolve (jassign t k v) [k] = v
          show jchild (jassign t k v) k = v
          cases t with
          | obj fs => exact jchild_jassign_obj fs k v
          | arr xs =>
              have hk : isIndexKey k = true := by
                rw [pathFits_arr, Bool.and_eq_true] at hf
                exact hf.1
              exact jchild_jassign_arr hk xs v
          | undef => simp [objLike] at ho
          | null => simp [objLike] at ho
          | bool b => simp [objLike] at ho
          | num n => simp [objLike] at ho
          | str s => simp [objLike] at ho
      | cons k2 rest' =>
          rw [lodashSet_cons_cons]
          set c := jchild t k with hc
          set c' := if objLike c then c else if isIndexKey k2 then JVal.arr [] else JVal.obj [] with hc'
          have harrk : ∀ xs, t = .arr xs → isIndexKey k = true := by
            intro xs hxs
            subst hxs
            rw [pathFits_arr, Bool.and_eq_true] at hf
            exact hf.1
          have hstep : resolve (jassign t k (lodashSet c' (k2 :: rest') v)) (k :: k2 :: rest')
              = resolve (lodashSet c' (k2 :: rest') v) (k2 :: rest') := by
            show resolve (jchild (jassign t k (lodashSet c' (k2 :: rest') v)) k) (k2 :: rest') = _
            congr 1
            cases t with
            | obj fs => exact jchild_jassign_obj fs k _
            | arr xs => exact jchild_jassign_arr (harrk xs rfl) xs _
            | undef => simp [objLike] at ho
            | null => simp [objLike] at ho
            | bool b => simp [objLike] at ho
            | num n => simp [objLike] at ho
            | str s => simp [objLike] at ho
          rw [hstep]
          have hobj' : objLike c' = true := by
            rw [hc']
            by_cases h : objLike c = true
            · rw [if_pos h]; exact h
            · rw [if_neg h]
              by_cases h2 : isIndexKey k2 = true
              · rw [if_pos h2]; rfl
              · rw [if_neg h2]; rfl
          have hfits' : pathFits c' (k2 :: rest') = true := by
            by_cases h : objLike c = true
            · have : c' = c := by rw [hc', if_pos h]
              rw [this]
              cases t with
              | obj fs => exact hf
              | arr xs =>
                  rw [pathFits_arr, Bool.and_eq_true] at hf
                  exact hf.2
              | undef => simp [objLike] at ho
              | null => simp [objLike] at ho
              | bool b => simp [objLike] at ho
              | num n => simp [objLike] at ho
              | str s => simp [objLike] at ho
            · rw [hc', if_neg h]
              by_cases h2 : isIndexKey k2 = true
              · rw [if_pos h2, pathFits_arr]
                have hju : jchild (.arr []) k2 = .undef := by
                  by_cases h3 : isIndexKey k2 = true <;> simp [jchild, h3]
                rw [hju, pathFits_undef, h2]
                rfl
              · rw [if_neg h2]
                show pathFits (jfield [] k2) rest' = true
                show pathFits JVal.undef rest' = true
                exact pathFits_undef rest'
          exact ih v hobj' hfits' (by simp)

/-- The resolved-path variant: when the path already resolves to a defined
value, a write along it is read back (no `pathFits` side condition needed,
because a defined resolution forces every array step to use an index key). -/
theorem resolve_lodashSet_of_resolved {t : JVal} {segs : List String}
    (h : resolve t segs ≠ .undef) (hs : segs ≠ []) (v : JVal) :
    resolve (lodashSet t segs v) segs = v :=
  resolve_lodashSet_self segs v (objLike_of_resolve hs h) (pathFits_of_resolve h) hs

end UseFormPath

namespace UseFormPath

/-- Writing along one path does not disturb a diverging path that resolves
to a defined value: the two paths share a prefix and then split on distinct
keys, so the write only touches the sibling key. -/
theorem resolve_lodashSet_diverge : ∀ (pre : List String) {a b : String}
    (p q : List String) {t : JVal} (v : JVal), a ≠ b →
    resolve t (pre ++ a :: p) ≠ .undef →
    resolve (lodashSet t (pre ++ b :: q) v) (pre ++ a :: p)
      = resolve t (pre ++ a :: p) := by
  intro pre
  induction pre with
  | nil =>
      intro a b p q t v hne hres
      have hkey : ∀ X, resolve (jassign t b X) (a :: p) = resolve t (a :: p) := by
        intro X
        show resolve (jchild (jassign t b X) a) p = resolve (jchild t a) p
        rw [jchild_jassign_ne hne]
      cases q with
      | nil => exact hkey v
      | cons q1 q' => exact hkey _
  | cons k pre' ih =>
      intro a b p q t v hne hres
      obtain ⟨m, ms, hm⟩ := exists_cons_of_append_cons pre' b q
      have hres' : resolve (jchild t k) (pre' ++ a :: p) ≠ .undef := hres
      have hobj : objLike t = true :=
        objLike_of_resolve (by simp) hres
      have hc : objLike (jchild t k) = true := by
        have hp : pre' ++ a :: p ≠ [] :=
          List.append_ne_nil_of_right_ne_nil pre' (by simp)
        exact objLike_of_resolve hp hres' 
      have hkarr : ∀ xs, t = .arr xs → isIndexKey k = true := by
        intro xs hxs
        subst hxs
        by_cases hk : isIndexKey k = true
        · exact hk
        · exfalso
          apply hres'
          rw [show jchild (.arr xs) k = .undef by simp [jchild, hk]]
          exact resolve_undef _
      show resolve (lodashSet t (k :: (pre' ++ b :: q)) v) (k :: (pre' ++ a :: p))
          = resolve t (k :: (pre' ++ a :: p))
      rw [hm, lodashSet_cons_cons, ← hm]
      rw [if_pos hc]
      have hstep : ∀ X, resolve (jassign t k X) (k :: (pre' ++ a :: p))
          = resolve X (pre' ++ a :: p) := by
        intro X
        show resolve (jchild (jassign t k X) k) (pre' ++ a :: p) = _
        congr 1
        cases t with
        | obj fs => exact jchild_jassign_obj fs k _
        | arr xs => exact jchild_jassign_arr (hkarr xs rfl) xs _
        | undef => simp [objLike] at hobj
        | null => simp [objLike] at hobj
        | bool b' => simp [objLike] at hobj
        | num n => simp [objLike] at hobj
        | str s => simp [objLike] at hobj
      rw [hstep]
      exact ih p q v hne hres'

end UseFormPath

namespace UseFormPath

theorem pathFits_jassign_ne {t : JVal} {a b : String} (hne : a ≠ b) (X : JVal)
    (p : List String) :
    pathFits (jassign t b X) (a :: p) = pathFits t (a :: p) := by
  cases t with
  | obj fs =>
      rw [pathFits_obj]
      show pathFits (jfield (setField fs b X) a) p = pathFits (jfield fs a) p
      rw [jfield_setField_ne fs hne X]
  | arr xs =>
      have hsh : ∃ ys, jassign (.arr xs) b X = .arr ys := by
        by_cases hb : isIndexKey b = true <;> simp [jassign, hb]
      obtain ⟨ys, hys⟩ := hsh
      rw [hys, pathFits_arr, pathFits_arr]
      have hch : jchild (.arr ys) a = jchild (.arr xs) a := by
        rw [← hys]
        exact jchild_jassign_ne hne X
      rw [hch]
  | undef => rfl
  | null => rfl
  | bool b' => rfl
  | num n => rfl
  | str s => rfl

/-- A diverging write preserves `pathFits`, provided the two paths split on
keys of the same kind (both index keys or both plain keys): the write can
replace a shared non-object-like intermediate by a fresh container whose
kind is chosen from its own next segment, and kind agreement keeps the
diverging path compatible with that fresh container. -/
theorem pathFits_lodashSet_diverge : ∀ (pre : List String) {a b : String}
    (p q : List String) {t : JVal} (v : JVal), a ≠ b →
    isIndexKey a = isIndexKey b →
    pathFits t (pre ++ a :: p) = true →
    pathFits (lodashSet t (pre ++ b :: q) v) (pre ++ a :: p) = true := by
  intro pre
  induction pre with
  | nil =>
      intro a b p q t v hne hkind hf
      cases q with
      | nil =>
          show pathFits (jassign t b v) (a :: p) = true
          rw [pathFits_jassign_ne hne]
          exact hf
      | cons q1 q' =>
          simp only [List.nil_append] at hf ⊢
          rw [lodashSet_cons_cons, pathFits_jassign_ne hne]
          exact hf
  | cons k pre' ih =>
      intro a b p q t v hne hkind hf
      simp only [List.cons_append] at hf
      obtain ⟨m, ms, hm⟩ := exists_cons_of_append_cons pre' b q
      show pathFits (lodashSet t (k :: (pre' ++ b :: q)) v) (k :: (pre' ++ a :: p)) = true
      rw [hm, lodashSet_cons_cons, ← hm]
      have mainX : ∀ (c : JVal), pathFits c (pre' ++ a :: p) = true →
          pathFits (lodashSet (if objLike c = true then c
              else if isIndexKey m = true then JVal.arr [] else JVal.obj [])
            (pre' ++ b :: q) v) (pre' ++ a :: p) = true := by
        intro c hcfit
        by_cases hoc : objLike c = true
        · rw [if_pos hoc]
          exact ih p q v hne hkind hcfit
        · rw [if_neg hoc]
          have hfresh : pathFits
              (if isIndexKey m = true then JVal.arr [] else JVal.obj [])
              (pre' ++ a :: p) = true := by
            by_cases hmi : isIndexKey m = true
            · rw [if_pos hmi]
              cases pre' with
              | nil =>
                  have hmb : b = m := by
                    rw [List.nil_append] at hm
                    injection hm with h1 h2
                  rw [List.nil_append, pathFits_arr]
                  have hju : jchild (.arr []) a = .undef := by
                    by_cases h3 : isIndexKey a = true <;> simp [jchild, h3]
                  have hia : isIndexKey a = true := by
                    rw [hkind, hmb]
                    exact hmi
                  rw [hju, pathFits_undef, hia]
                  rfl
              | cons m' pre'' =>
                  have hmm : m' = m := by
                    rw [List.cons_append] at hm
                    injection hm with h1 h2
                  rw [List.cons_append, pathFits_arr]
                  have hju : jchild (.arr []) m' = .undef := by
                    by_cases h3 : isIndexKey m' = true <;> simp [jchild, h3]
                  rw [hju, pathFits_undef, hmm, hmi]
                  rfl
            · rw [if_neg hmi]
              cases pre' with
              | nil =>
                  rw [List.nil_append, pathFits_obj]
                  show pathFits JVal.undef p = true
                  exact pathFits_undef p
              | cons m' pre'' =>
                  rw [List.cons_append, pathFits_obj]
                  show pathFits JVal.undef (pre'' ++ a :: p) = true
                  exact pathFits_undef _
          exact ih p q v hne hkind hfresh
      cases t with
      | obj fs =>
          have hcfit : pathFits (jchild (.obj fs) k) (pre' ++ a :: p) = true := hf
          show pathFits (JVal.obj (setField fs k _)) (k :: (pre' ++ a :: p)) = true
          rw [pathFits_obj, jfield_setField_self]
          exact mainX (jchild (.obj fs) k) hcfit
      | arr xs =>
          rw [pathFits_arr, Bool.and_eq_true] at hf
          obtain ⟨hk, hcfit⟩ := hf
          have hsh : ∀ X : JVal, jassign (.arr xs) k X
              = .arr (setIdx xs (parseIdx k) X) := by
            intro X
            simp [jassign, hk]
          rw [hsh]
          rw [pathFits_arr]
          have hch : jchild (.arr (setIdx xs (parseIdx k)
              (lodashSet (if objLike (jchild (.arr xs) k) = true then jchild (.arr xs) k
                else if isIndexKey m = true then JVal.arr [] else JVal.obj [])
                (pre' ++ b :: q) v))) k
              = lodashSet (if objLike (jchild (.arr xs) k) = true then jchild (.arr xs) k
                else if isIndexKey m = true then JVal.arr [] else JVal.obj [])
                (pre' ++ b :: q) v := by
            rw [← hsh]
            exact jchild_jassign_arr hk xs _
          rw [hch, mainX (jchild (.arr xs) k) hcfit, hk]
          rfl
      | undef => rfl
      | null => rfl
      | bool b' => rfl
      | num n => rfl
      | str s => rfl

end UseFormPath

namespace UseFormPath

theorem objLike_lodashSet {t : JVal} (h : objLike t = true) (segs : List String)
    (v : JVal) : objLike (lodashSet t segs v) = true := by
  cases segs with
  | nil => exact h
  | cons k rest =>
      cases rest with
      | nil => exact objLike_jassign h k v
      | cons k2 rest' => exact objLike_jassign h k _

/-- Writing one segment below a resolved container rewrites that container
by `jassign`: the `arrayPush` shape `set(tree, path ++ [newIndex], v)`. -/
theorem resolve_lodashSet_snoc : ∀ (segs : List String) {t : JVal}
    (k : String) (v : JVal), objLike (resolve t segs) = true →
    resolve (lodashSet t (segs ++ [k]) v) segs = jassign (resolve t segs) k v := by
  intro segs
  induction segs with
  | nil => intro t k v _; rfl
  | cons k0 segs' ih =>
      intro t k v hobj
      have hres : resolve (jchild t k0) segs' ≠ .undef := by
        intro hu
        rw [show resolve t (k0 :: segs') = resolve (jchild t k0) segs' from rfl, hu] at hobj
        simp [objLike] at hobj
      have hc : objLike (jchild t k0) = true := by
        cases segs' with
        | nil =>
            simpa using hobj
        | cons s1 s' => exact objLike_of_resolve (by simp) hres
      have hto : objLike t = true := by
        by_cases ho : objLike t = true
        · exact ho
        · exfalso
          apply hres
          rw [jchild_nonObj (by simpa using ho), resolve_undef]
      have hk0 : ∀ xs, t = .arr xs → isIndexKey k0 = true := by
        intro xs hxs
        subst hxs
        by_cases hk : isIndexKey k0 = true
        · exact hk
        · exfalso
          apply hres
          rw [show jchild (.arr xs) k0 = .undef from by simp [jchild, hk], resolve_undef]
      show resolve (lodashSet t (k0 :: (segs' ++ [k])) v) (k0 :: segs') = _
      obtain ⟨m, ms, hm⟩ := exists_cons_of_append_cons segs' k ([])
      rw [hm, lodashSet_cons_cons, ← hm, if_pos hc]
      have hstep : ∀ X : JVal, resolve (jassign t k0 X) (k0 :: segs')
          = resolve X segs' := by
        intro X
        show resolve (jchild (jassign t k0 X) k0) segs' = _
        congr 1
        cases t with
        | obj fs => exact jchild_jassign_obj fs k0 _
        | arr xs => exact jchild_jassign_arr (hk0 xs rfl) xs _
        | undef => simp [objLike] at hto
        | null => simp [objLike] at hto
        | bool b => simp [objLike] at hto
        | num n => simp [objLike] at hto
        | str s => simp [objLike] at hto
      rw [hstep]
      exact ih k v hobj

/-- Appending to an array: assignment at the key rendered from the length. -/
theorem jassign_append (xs : List JVal) (v : JVal) :
    jassign (.arr xs) (natStr xs.length) v = .arr (xs ++ [v]) := by
  rw [show jassign (.arr xs) (natStr xs.length) v
      = if isIndexKey (natStr xs.length) = true
        then JVal.arr (setIdx xs (parseIdx (natStr xs.length)) v)
        else .arr xs from rfl]
  rw [if_pos (isIndexKey_natStr xs.length), parseIdx_natStr]
  unfold setIdx
  rw [if_neg (by omega)]
  simp

end UseFormPath

namespace UseFormPath

/-- A character that is none of the path metacharacters. -/
def plainChar (c : Char) : Bool := c != '.' && c != '[' && c != ']'

/-- A string usable as one dot segment: non-empty and metacharacter-free. -/
def segOk (s : String) : Bool := (!s.isEmpty) && s.toList.all plainChar

theorem toPathCore_dot (rest cur : List Char) :
    toPathCore ('.' :: rest) cur
      = if cur.isEmpty then toPathCore rest [] else cur :: toPathCore rest [] := rfl

theorem toPathCore_bracket (rest cur : List Char) :
    toPathCore ('[' :: rest) cur
      = (if cur.isEmpty then [] else [cur]) ++ bracketCore rest [] := rfl

theorem toPathCore_step {c : Char} (h1 : c ≠ '.') (h2 : c ≠ '[')
    (rest cur : List Char) :
    toPathCore (c :: rest) cur = toPathCore rest (cur ++ [c]) := by
  rw [toPathCore.eq_def]
  split
  · rename_i heq; exact absurd heq (by simp)
  · rename_i heq
    simp only [List.cons.injEq] at heq
    exact absurd heq.1 h1
  · rename_i heq
    simp only [List.cons.injEq] at heq
    exact absurd heq.1 h2
  · rename_i c' rest' heq
    simp only [List.cons.injEq] at heq
    rw [heq.1, heq.2]

theorem bracketCore_close (rest cur : List Char) :
    bracketCore (']' :: rest) cur = cur :: toPathCore rest [] := rfl

theorem bracketCore_step {c : Char} (h : c ≠ ']') (rest cur : List Char) :
    bracketCore (c :: rest) cur = bracketCore rest (cur ++ [c]) := by
  rw [bracketCore.eq_def]
  split
  · rename_i heq; exact absurd heq (by simp)
  · rename_i heq
    simp only [List.cons.injEq] at heq
    exact absurd heq.1 h
  · rename_i c' rest' heq
    simp only [List.cons.injEq] at heq
    rw [heq.1, heq.2]

theorem toPathCore_chunk : ∀ (cs : List Char), cs.all plainChar = true →
    ∀ (rest cur : List Char),
      toPathCore (cs ++ rest) cur = toPathCore rest (cur ++ cs) := by
  intro cs
  induction cs with
  | nil => intro _ rest cur; simp
  | cons c cs' ih =>
      intro h rest cur
      simp only [List.all_cons, Bool.and_eq_true] at h
      obtain ⟨hc, hcs⟩ := h
      simp only [plainChar, Bool.and_eq_true, bne_iff_ne] at hc
      rw [List.cons_append, toPathCore_step hc.1.1 hc.1.2]
      rw [ih hcs rest (cur ++ [c])]
      simp

theorem bracketCore_chunk : ∀ (cs : List Char),
    cs.all (fun c => c != ']') = true →
    ∀ (rest cur : List Char),
      bracketCore (cs ++ rest) cur = bracketCore rest (cur ++ cs) := by
  intro cs
  induction cs with
  | nil => intro _ rest cur; simp
  | cons c cs' ih =>
      intro h rest cur
      simp only [List.all_cons, Bool.and_eq_true, bne_iff_ne] at h
      rw [List.cons_append, bracketCore_step h.1]
      rw [ih (by simpa using h.2) rest (cur ++ [c])]
      simp

/-- Parsing a dot-joined list of plain segments recovers the segments. -/
theorem toPath_dotted : ∀ (p : List String), (∀ s ∈ p, segOk s = true) →
    p ≠ [] → toPath (dotted p) = p := by
  intro p
  induction p with
  | nil => intro _ h; exact absurd rfl h
  | cons k p' ih =>
      intro hok _
      have hk : segOk k = true := hok k (by simp)
      simp only [segOk, Bool.and_eq_true] at hk
      cases p' with
      | nil =>
          show (toPathCore (dotted [k]).toList []).map String.mk = [k]
          have h1 : (dotted [k]).toList = k.toList ++ [] := by simp [dotted]
          rw [h1, toPathCore_chunk k.toList hk.2 [] []]
          have hne : (k.toList).isEmpty = false := by
            cases hh : k.toList with
            | nil =>
                exfalso
                have : k.isEmpty = true := by
                  simpa [String.isEmpty_iff] using congrArg String.mk hh
                simp [this] at hk
            | cons a b => rfl
          show (if ([] ++ k.toList : List Char).isEmpty then ([] : List (List Char))
              else [[] ++ k.toList]).map String.mk = [k]
          simp only [List.nil_append, hne]
          simp [strMk_toList]
      | cons m p'' =>
          have hdot : dotted (k :: m :: p'') = k ++ "." ++ dotted (m :: p'') := rfl
          show (toPathCore (dotted (k :: m :: p'')).toList []).map String.mk = _
          rw [hdot]
          have h2 : (k ++ "." ++ dotted (m :: p'')).toList
              = k.toList ++ ('.' :: (dotted (m :: p'')).toList) := by
            rw [strToList_append, strToList_append, List.append_assoc]
            rfl
          rw [h2, toPathCore_chunk k.toList hk.2 _ [], List.nil_append]
          rw [toPathCore_dot]
          have hne : (k.toList).isEmpty = false := by
            cases hh : k.toList with
            | nil =>
                exfalso
                have : k.isEmpty = true := by
                  simpa [String.isEmpty_iff] using congrArg String.mk hh
                simp [this] at hk
            | cons a b => rfl
          rw [hne]
          show (k.toList :: toPathCore (dotted (m :: p'')).toList []).map String.mk
              = k :: m :: p''
          simp only [List.map_cons, strMk_toList]
          have := ih (fun s hs => hok s (by simp [hs])) (by simp)
          simpa [toPath] using this

end UseFormPath

namespace UseFormPath

theorem plainChar_of_isDig {c : Char} (h : isDig c = true) : plainChar c = true := by
  have h' := digitVal_lt_of_isDig h
  simp only [plainChar, Bool.and_eq_true, bne_iff_ne]
  refine ⟨⟨?_, ?_⟩, ?_⟩ <;> rintro rfl <;> simp [digitVal] at h'

theorem natStr_toList (n : Nat) : (natStr n).toList = natDigits n := rfl

theorem natStr_all_plain (n : Nat) : (natStr n).toList.all plainChar = true := by
  rw [natStr_toList, List.all_eq_true]
  intro c hc
  have hall := natDigits_all_isDig n
  rw [List.all_eq_true] at hall
  exact plainChar_of_isDig (hall c hc)

theorem segOk_natStr (n : Nat) : segOk (natStr n) = true := by
  simp only [segOk, Bool.and_eq_true]
  refine ⟨?_, natStr_all_plain n⟩
  simp only [Bool.not_eq_true']
  rw [Bool.eq_false_iff]
  intro hem
  rw [String.isEmpty_iff] at hem
  apply natDigits_ne_nil n
  rw [← natStr_toList, hem]
  rfl

theorem segOk_of_plainKey {s : String} (h : plainKey s = true) : segOk s = true := by
  simp only [plainKey, Bool.and_eq_true] at h
  simp only [segOk, Bool.and_eq_true]
  exact ⟨h.1.1, h.1.2⟩

theorem toPathCore_bracket_snoc : ∀ (cs : List Char),
    cs.all (fun c => c != '[' && c != ']') = true →
    ∀ (ds : List Char), ds.all plainChar = true →
    ∀ (cur : List Char),
      toPathCore (cs ++ '[' :: (ds ++ [']'])) cur = toPathCore cs cur ++ [ds] := by
  intro cs
  induction cs with
  | nil =>
      intro _ ds hds cur
      simp only [List.nil_append]
      rw [toPathCore_bracket]
      have hds' : ds.all (fun c => c != ']') = true := by
        rw [List.all_eq_true] at hds ⊢
        intro c hc
        have := hds c hc
        simp only [plainChar, Bool.and_eq_true] at this
        exact this.2
      rw [bracketCore_chunk ds hds' [']'] [], List.nil_append, bracketCore_close]
      rfl
  | cons c cs' ih =>
      intro hb ds hds cur
      simp only [List.all_cons, Bool.and_eq_true, bne_iff_ne] at hb
      obtain ⟨⟨hc1, hc2⟩, hbs⟩ := hb
      have hbs' : cs'.all (fun c => c != '[' && c != ']') = true := by
        rw [List.all_eq_true] at hbs ⊢
        intro x hx
        have := hbs x hx
        simpa using this
      by_cases hdot : c = '.'
      · subst hdot
        rw [List.cons_append, toPathCore_dot, toPathCore_dot]
        cases hc : cur.isEmpty
        · simp only [Bool.false_eq_true, if_false]
          rw [ih hbs' ds hds []]
          simp
        · simp only [if_true]
          rw [ih hbs' ds hds []]
      · rw [List.cons_append, toPathCore_step hdot hc1, toPathCore_step hdot hc1]
        exact ih hbs' ds hds (cur ++ [c])

end UseFormPath

namespace UseFormPath

/-- Parsing the `arrayPush` index path: appending a bracketed decimal index
to a bracket-free path appends one segment. -/
theorem toPath_bracket_append (path : String)
    (hb : path.toList.all (fun c => c != '[' && c != ']') = true) (n : Nat) :
    toPath (path ++ "[" ++ natStr n ++ "]") = toPath path ++ [natStr n] := by
  unfold toPath
  have h1 : (path ++ "[" ++ natStr n ++ "]").toList
      = path.toList ++ '[' :: ((natStr n).toList ++ [']']) := by
    rw [strToList_append, strToList_append, strToList_append,
      List.append_assoc, List.append_assoc]
    rfl
  rw [h1, toPathCore_bracket_snoc path.toList hb (natStr n).toList
    (natStr_all_plain n) []]
  rw [List.map_append]
  simp [strMk_toList]

end UseFormPath

namespace UseFormPath

theorem dotted_cons {p : List String} (h : p ≠ []) (k : String) :
    dotted (k :: p) = k ++ "." ++ dotted p := by
  cases p with
  | nil => exact absurd rfl h
  | cons m ms => rfl

theorem leafSegsFields_ne : ∀ (fs : List (String × JVal)) (p : List String),
    p ∈ leafSegsFields fs → p ≠ [] := by
  intro fs
  induction fs with
  | nil => intro p hp; simp [leafSegsFields] at hp
  | cons kv fs ih =>
      obtain ⟨k, v⟩ := kv
      intro p hp
      rw [show leafSegsFields ((k, v) :: fs)
          = (if objLike v then (leafSegs v).map (k :: ·) else [[k]])
            ++ leafSegsFields fs from rfl] at hp
      rcases List.mem_append.mp hp with h | h
      · by_cases ho : objLike v = true
        · rw [if_pos ho] at h
          obtain ⟨q, -, rfl⟩ := List.mem_map.mp h
          simp
        · rw [if_neg ho] at h
          simp only [List.mem_singleton] at h
          subst h
          simp
      · exact ih p h

theorem leafSegsElems_ne : ∀ (xs : List JVal) (i : Nat) (p : List String),
    p ∈ leafSegsElems xs i → p ≠ [] := by
  intro xs
  induction xs with
  | nil => intro i p hp; simp [leafSegsElems] at hp
  | cons v xs ih =>
      intro i p hp
      rw [show leafSegsElems (v :: xs) i
          = (if objLike v then (leafSegs v).map (natStr i :: ·) else [[natStr i]])
            ++ leafSegsElems xs (i + 1) from rfl] at hp
      rcases List.mem_append.mp hp with h | h
      · by_cases ho : objLike v = true
        · rw [if_pos ho] at h
          obtain ⟨q, -, rfl⟩ := List.mem_map.mp h
          simp
        · rw [if_neg ho] at h
          simp only [List.mem_singleton] at h
          subst h
          simp
      · exact ih (i + 1) p h

theorem leafSegs_ne : ∀ (t : JVal) (p : List String), p ∈ leafSegs t → p ≠ [] := by
  intro t p hp
  cases t with
  | obj fs => exact leafSegsFields_ne fs p hp
  | arr xs => exact leafSegsElems_ne xs 0 p hp
  | undef => simp [leafSegs] at hp
  | null => simp [leafSegs] at hp
  | bool b => simp [leafSegs] at hp
  | num n => simp [leafSegs] at hp
  | str s => simp [leafSegs] at hp

mutual
theorem keyify_eq_leafSegs : ∀ (t : JVal) (pre : String),
    keyify t pre = (leafSegs t).map (fun p => pre ++ dotted p)
  | .obj fs, pre => keyifyFields_eq_leafSegs fs pre
  | .arr xs, pre => keyifyElems_eq_leafSegs xs 0 pre
  | .undef, _ => rfl
  | .null, _ => rfl
  | .bool _, _ => rfl
  | .num _, _ => rfl
  | .str _, _ => rfl
theorem keyifyFields_eq_leafSegs : ∀ (fs : List (String × JVal)) (pre : String),
    keyifyFields fs pre = (leafSegsFields fs).map (fun p => pre ++ dotted p)
  | [], _ => rfl
  | (k, v) :: fs, pre => by
      rw [show keyifyFields ((k, v) :: fs) pre
          = (if objLike v then keyify v (pre ++ k ++ ".") else [pre ++ k])
            ++ keyifyFields fs pre from rfl]
      rw [show leafSegsFields ((k, v) :: fs)
          = (if objLike v then (leafSegs v).map (k :: ·) else [[k]])
            ++ leafSegsFields fs from rfl]
      rw [List.map_append, keyifyFields_eq_leafSegs fs pre]
      congr 1
      by_cases ho : objLike v = true
      · rw [if_pos ho, if_pos ho, keyify_eq_leafSegs v (pre ++ k ++ "."),
          List.map_map]
        apply List.map_eq_map_iff.mpr
        intro p hp
        have hne : p ≠ [] := leafSegs_ne v p hp
        show pre ++ k ++ "." ++ dotted p = pre ++ dotted (k :: p)
        rw [dotted_cons hne, String.append_assoc, String.append_assoc,
          String.append_assoc]
      · rw [if_neg ho, if_neg ho]
        rfl
theorem keyifyElems_eq_leafSegs : ∀ (xs : List JVal) (i : Nat) (pre : String),
    keyifyElems xs i pre = (leafSegsElems xs i).map (fun p => pre ++ dotted p)
  | [], _, _ => rfl
  | v :: xs, i, pre => by
      rw [show keyifyElems (v :: xs) i pre
          = (if objLike v then keyify v (pre ++ natStr i ++ ".") else [pre ++ natStr i])
            ++ keyifyElems xs (i + 1) pre from rfl]
      rw [show leafSegsElems (v :: xs) i
          = (if objLike v then (leafSegs v).map (natStr i :: ·) else [[natStr i]])
            ++ leafSegsElems xs (i + 1) from rfl]
      rw [List.map_append, keyifyElems_eq_leafSegs xs (i + 1) pre]
      congr 1
      by_cases ho : objLike v = true
      · rw [if_pos ho, if_pos ho, keyify_eq_leafSegs v (pre ++ natStr i ++ "."),
          List.map_map]
        apply List.map_eq_map_iff.mpr
        intro p hp
        have hne : p ≠ [] := leafSegs_ne v p hp
        show pre ++ natStr i ++ "." ++ dotted p = pre ++ dotted (natStr i :: p)
        rw [dotted_cons hne, String.append_assoc, String.append_assoc,
          String.append_assoc]
      · rw [if_neg ho, if_neg ho]
        rfl
end

end UseFormPath

namespace UseFormPath

theorem keyAbsent_ne {k : String} : ∀ {fs : List (String × JVal)},
    keyAbsent k fs = true → ∀ {k' v'}, (k', v') ∈ fs → k' ≠ k := by
  intro fs
  induction fs with
  | nil => intro _ k' v' hm; simp at hm
  | cons kv fs ih =>
      obtain ⟨a, w⟩ := kv
      intro h k' v' hm
      simp only [keyAbsent, Bool.and_eq_true, bne_iff_ne] at h
      rcases List.mem_cons.mp hm with heq | hmem
      · cases heq; exact h.1
      · exact ih h.2 hmem

theorem cleanFields_parts {k : String} {v : JVal} {fs : List (String × JVal)}
    (h : cleanFields ((k, v) :: fs) = true) :
    plainKey k = true ∧ keyAbsent k fs = true ∧ cleanTree v = true
      ∧ cleanFields fs = true := by
  rw [show cleanFields ((k, v) :: fs)
      = (plainKey k && (keyAbsent k fs && (cleanTree v && cleanFields fs))) from by
    rw [show cleanFields ((k, v) :: fs)
        = (plainKey k && keyAbsent k fs && cleanTree v && cleanFields fs) from rfl]
    simp [Bool.and_assoc]] at h
  simp only [Bool.and_eq_true] at h
  exact ⟨h.1, h.2.1, h.2.2.1, h.2.2.2⟩

theorem cleanElems_parts {v : JVal} {xs : List JVal}
    (h : cleanElems (v :: xs) = true) :
    cleanTree v = true ∧ cleanElems xs = true := by
  rw [show cleanElems (v :: xs) = (cleanTree v && cleanElems xs) from rfl] at h
  simpa using h

theorem cleanTree_ne_undef {v : JVal} (h : cleanTree v = true) : v ≠ .undef := by
  intro hv
  subst hv
  simp [cleanTree] at h

theorem jchild_arr_natStr (ys : List JVal) (i : Nat) :
    jchild (.arr ys) (natStr i) = ys.getD i .undef := by
  rw [show jchild (.arr ys) (natStr i)
      = if isIndexKey (natStr i) then ys.getD (parseIdx (natStr i)) .undef
        else .undef from rfl]
  rw [if_pos (isIndexKey_natStr i), parseIdx_natStr]

theorem leafSegsFields_head : ∀ (fs : List (String × JVal)) (p : List String),
    p ∈ leafSegsFields fs → ∃ k q, p = k :: q ∧ ∃ v, (k, v) ∈ fs := by
  intro fs
  induction fs with
  | nil => intro p hp; simp [leafSegsFields] at hp
  | cons kv fs ih =>
      obtain ⟨k, v⟩ := kv
      intro p hp
      rw [show leafSegsFields ((k, v) :: fs)
          = (if objLike v then (leafSegs v).map (k :: ·) else [[k]])
            ++ leafSegsFields fs from rfl] at hp
      rcases List.mem_append.mp hp with h | h
      · by_cases ho : objLike v = true
        · rw [if_pos ho] at h
          obtain ⟨q, -, rfl⟩ := List.mem_map.mp h
          exact ⟨k, q, rfl, v, by simp⟩
        · rw [if_neg ho] at h
          simp only [List.mem_singleton] at h
          subst h
          exact ⟨k, [], rfl, v, by simp⟩
      · obtain ⟨k', q', heq, v', hmem⟩ := ih p h
        exact ⟨k', q', heq, v', by simp [hmem]⟩

mutual
theorem leafSegs_spec : ∀ (t : JVal), cleanTree t = true →
    ∀ p ∈ leafSegs t, resolve t p ≠ .undef ∧ (∀ s ∈ p, segOk s = true)
  | .obj fs, h, p, hp => leafSegsFields_spec fs h p hp
  | .arr xs, h, p, hp =>
      leafSegsElems_spec xs 0 xs (fun j _ => by rw [Nat.zero_add]) h p hp
  | .undef, h, p, hp => by simp [leafSegs] at hp
  | .null, h, p, hp => by simp [leafSegs] at hp
  | .bool _, h, p, hp => by simp [leafSegs] at hp
  | .num _, h, p, hp => by simp [leafSegs] at hp
  | .str _, h, p, hp => by simp [leafSegs] at hp
theorem leafSegsFields_spec : ∀ (fs : List (String × JVal)),
    cleanFields fs = true → ∀ p ∈ leafSegsFields fs,
    resolve (.obj fs) p ≠ .undef ∧ (∀ s ∈ p, segOk s = true)
  | [], _, p, hp => by simp [leafSegsFields] at hp
  | (k, v) :: fs, h, p, hp => by
      obtain ⟨hpk, habs, hcv, hcfs⟩ := cleanFields_parts h
      rw [show leafSegsFields ((k, v) :: fs)
          = (if objLike v then (leafSegs v).map (k :: ·) else [[k]])
            ++ leafSegsFields fs from rfl] at hp
      rcases List.mem_append.mp hp with hmem | hmem
      · by_cases ho : objLike v = true
        · rw [if_pos ho] at hmem
          obtain ⟨q, hq, rfl⟩ := List.mem_map.mp hmem
          obtain ⟨hres, hsegs⟩ := leafSegs_spec v hcv q hq
          constructor
          · show resolve (jchild (.obj ((k, v) :: fs)) k) q ≠ .undef
            rw [show jchild (.obj ((k, v) :: fs)) k = v from by
              simp [jchild, jfield]]
            exact hres
          · intro s hs
            rcases List.mem_cons.mp hs with rfl | hs'
            · exact segOk_of_plainKey hpk
            · exact hsegs s hs'
        · rw [if_neg ho] at hmem
          simp only [List.mem_singleton] at hmem
          subst hmem
          constructor
          · show resolve (jchild (.obj ((k, v) :: fs)) k) [] ≠ .undef
            rw [show jchild (.obj ((k, v) :: fs)) k = v from by
              simp [jchild, jfield]]
            exact cleanTree_ne_undef hcv
          · intro s hs
            simp only [List.mem_singleton] at hs
            subst hs
            exact segOk_of_plainKey hpk
      · obtain ⟨hres, hsegs⟩ := leafSegsFields_spec fs hcfs p hmem
        refine ⟨?_, hsegs⟩
        obtain ⟨k', q', hk'q, v', hv'⟩ := leafSegsFields_head fs p hmem
        subst hk'q
        have hne : k' ≠ k := keyAbsent_ne habs hv'
        show resolve (jchild (.obj ((k, v) :: fs)) k') q' ≠ .undef
        rw [show jchild (.obj ((k, v) :: fs)) k' = jfield fs k' from by
          simp [jchild, jfield, Ne.symm hne]]
        exact hres
theorem leafSegsElems_spec : ∀ (xs : List JVal) (i : Nat) (ys : List JVal),
    (∀ j, j < xs.length → ys.getD (i + j) .undef = xs.getD j .undef) →
    cleanElems xs = true → ∀ p ∈ leafSegsElems xs i,
    resolve (.arr ys) p ≠ .undef ∧ (∀ s ∈ p, segOk s = true)
  | [], _, _, _, _, p, hp => by simp [leafSegsElems] at hp
  | v :: xs, i, ys, hoff, h, p, hp => by
      obtain ⟨hcv, hcxs⟩ := cleanElems_parts h
      rw [show leafSegsElems (v :: xs) i
          = (if objLike v then (leafSegs v).map (natStr i :: ·) else [[natStr i]])
            ++ leafSegsElems xs (i + 1) from rfl] at hp
      have hysi : ys.getD i .undef = v := by
        have := hoff 0 (by simp)
        simpa using this
      rcases List.mem_append.mp hp with hmem | hmem
      · by_cases ho : objLike v = true
        · rw [if_pos ho] at hmem
          obtain ⟨q, hq, rfl⟩ := List.mem_map.mp hmem
          obtain ⟨hres, hsegs⟩ := leafSegs_spec v hcv q hq
          constructor
          · show resolve (jchild (.arr ys) (natStr i)) q ≠ .undef
            rw [jchild_arr_natStr, hysi]
            exact hres
          · intro s hs
            rcases List.mem_cons.mp hs with rfl | hs'
            · exact segOk_natStr i
            · exact hsegs s hs'
        · rw [if_neg ho] at hmem
          simp only [List.mem_singleton] at hmem
          subst hmem
          constructor
          · show resolve (jchild (.arr ys) (natStr i)) [] ≠ .undef
            rw [jchild_arr_natStr, hysi]
            exact cleanTree_ne_undef hcv
          · intro s hs
            simp only [List.mem_singleton] at hs
            subst hs
            exact segOk_natStr i
      · refine leafSegsElems_spec xs (i + 1) ys ?_ hcxs p hmem
        intro j hj
        have := hoff (j + 1) (by simpa using Nat.succ_lt_succ hj)
        rw [show i + 1 + j = i + (j + 1) from by omega]
        rw [this]
        rfl
end

end UseFormPath

namespace UseFormPath

/-- Two parsed paths that share a prefix and then split on distinct keys of
the same kind; any two distinct leaf paths of a clean tree relate this way. -/
def Diverge (p q : List String) : Prop :=
  ∃ pre a b p' q', p = pre ++ a :: p' ∧ q = pre ++ b :: q' ∧ a ≠ b ∧
    isIndexKey a = isIndexKey b

theorem Diverge_symm {p q : List String} (h : Diverge p q) : Diverge q p := by
  obtain ⟨pre, a, b, p', q', h1, h2, h3, h4⟩ := h
  exact ⟨pre, b, a, q', p', h2, h1, Ne.symm h3, h4.symm⟩

theorem Diverge_cons (k : String) {p q : List String} (h : Diverge p q) :
    Diverge (k :: p) (k :: q) := by
  obtain ⟨pre, a, b, p', q', rfl, rfl, h3, h4⟩ := h
  exact ⟨k :: pre, a, b, p', q', rfl, rfl, h3, h4⟩

theorem Diverge_heads {a b : String} (hne : a ≠ b)
    (hkind : isIndexKey a = isIndexKey b) (p q : List String) :
    Diverge (a :: p) (b :: q) :=
  ⟨[], a, b, p, q, rfl, rfl, hne, hkind⟩

theorem cleanFields_key_plain : ∀ {fs : List (String × JVal)},
    cleanFields fs = true → ∀ {k v}, (k, v) ∈ fs → plainKey k = true := by
  intro fs
  induction fs with
  | nil => intro _ k v hm; simp at hm
  | cons kv fs ih =>
      obtain ⟨a, w⟩ := kv
      intro h k v hm
      obtain ⟨hpk, -, -, hcfs⟩ := cleanFields_parts h
      rcases List.mem_cons.mp hm with heq | hmem
      · cases heq; exact hpk
      · exact ih hcfs hmem

theorem plainKey_not_index {k : String} (h : plainKey k = true) :
    isIndexKey k = false := by
  simp only [plainKey, Bool.and_eq_true] at h
  simpa using h.2

theorem leafSegsElems_head : ∀ (xs : List JVal) (i : Nat) (p : List String),
    p ∈ leafSegsElems xs i → ∃ j q, j < xs.length ∧ p = natStr (i + j) :: q := by
  intro xs
  induction xs with
  | nil => intro i p hp; simp [leafSegsElems] at hp
  | cons v xs ih =>
      intro i p hp
      rw [show leafSegsElems (v :: xs) i
          = (if objLike v then (leafSegs v).map (natStr i :: ·) else [[natStr i]])
            ++ leafSegsElems xs (i + 1) from rfl] at hp
      rcases List.mem_append.mp hp with h | h
      · by_cases ho : objLike v = true
        · rw [if_pos ho] at h
          obtain ⟨q, -, rfl⟩ := List.mem_map.mp h
          exact ⟨0, q, by simp, by rw [Nat.add_zero]⟩
        · rw [if_neg ho] at h
          simp only [List.mem_singleton] at h
          subst h
          exact ⟨0, [], by simp, by rw [Nat.add_zero]⟩
      · obtain ⟨j, q, hj, rfl⟩ := ih (i + 1) p h
        exact ⟨j + 1, q, by simpa using Nat.succ_lt_succ hj,
          by rw [show i + (j + 1) = i + 1 + j from by omega]⟩

mutual
theorem leafSegs_pairwise : ∀ (t : JVal), cleanTree t = true →
    (leafSegs t).Pairwise Diverge
  | .obj fs, h => leafSegsFields_pairwise fs h
  | .arr xs, h => leafSegsElems_pairwise xs 0 h
  | .undef, _ => List.Pairwise.nil
  | .null, _ => List.Pairwise.nil
  | .bool _, _ => List.Pairwise.nil
  | .num _, _ => List.Pairwise.nil
  | .str _, _ => List.Pairwise.nil
theorem leafSegsFields_pairwise : ∀ (fs : List (String × JVal)),
    cleanFields fs = true → (leafSegsFields fs).Pairwise Diverge
  | [], _ => List.Pairwise.nil
  | (k, v) :: fs, h => by
      obtain ⟨hpk, habs, hcv, hcfs⟩ := cleanFields_parts h
      rw [show leafSegsFields ((k, v) :: fs)
          = (if objLike v then (leafSegs v).map (k :: ·) else [[k]])
            ++ leafSegsFields fs from rfl]
      rw [List.pairwise_append]
      refine ⟨?_, leafSegsFields_pairwise fs hcfs, ?_⟩
      · by_cases ho : objLike v = true
        · rw [if_pos ho, List.pairwise_map]
          exact (leafSegs_pairwise v hcv).imp (Diverge_cons k)
        · rw [if_neg ho]
          exact List.pairwise_singleton _ _
      · intro x hx y hy
        obtain ⟨k', yq, rfl, v', hv'⟩ := leafSegsFields_head fs y hy
        have hkp' : plainKey k' = true := cleanFields_key_plain hcfs hv'
        have hne : k ≠ k' := Ne.symm (keyAbsent_ne habs hv')
        have hkind : isIndexKey k = isIndexKey k' := by
          rw [plainKey_not_index hpk, plainKey_not_index hkp']
        by_cases ho : objLike v = true
        · rw [if_pos ho] at hx
          obtain ⟨xq, -, rfl⟩ := List.mem_map.mp hx
          exact Diverge_heads hne hkind xq yq
        · rw [if_neg ho] at hx
          simp only [List.mem_singleton] at hx
          subst hx
          exact Diverge_heads hne hkind [] yq
theorem leafSegsElems_pairwise : ∀ (xs : List JVal) (i : Nat),
    cleanElems xs = true → (leafSegsElems xs i).Pairwise Diverge
  | [], _, _ => List.Pairwise.nil
  | v :: xs, i, h => by
      obtain ⟨hcv, hcxs⟩ := cleanElems_parts h
      rw [show leafSegsElems (v :: xs) i
          = (if objLike v then (leafSegs v).map (natStr i :: ·) else [[natStr i]])
            ++ leafSegsElems xs (i + 1) from rfl]
      rw [List.pairwise_append]
      refine ⟨?_, leafSegsElems_pairwise xs (i + 1) hcxs, ?_⟩
      · by_cases ho : objLike v = true
        · rw [if_pos ho, List.pairwise_map]
          exact (leafSegs_pairwise v hcv).imp (Diverge_cons (natStr i))
        · rw [if_neg ho]
          exact List.pairwise_singleton _ _
      · intro x hx y hy
        obtain ⟨j, yq, hj, rfl⟩ := leafSegsElems_head xs (i + 1) y hy
        have hne : natStr i ≠ natStr (i + 1 + j) := by
          intro he
          have := natStr_injective he
          omega
        have hkind : isIndexKey (natStr i) = isIndexKey (natStr (i + 1 + j)) := by
          rw [isIndexKey_natStr, isIndexKey_natStr]
        by_cases ho : objLike v = true
        · rw [if_pos ho] at hx
          obtain ⟨xq, -, rfl⟩ := List.mem_map.mp hx
          exact Diverge_heads hne hkind xq yq
        · rw [if_neg ho] at hx
          simp only [List.mem_singleton] at hx
          subst hx
          exact Diverge_heads hne hkind [] yq
end

end UseFormPath

namespace UseFormPath

/-- A path that resolves to a defined value survives a fold of writes along
paths it diverges from. -/
theorem resolve_foldl_preserve : ∀ (L : List (List String)) (t : JVal)
    (f : List String → JVal) (p : List String),
    (∀ q ∈ L, Diverge p q) → resolve t p ≠ .undef →
    resolve (L.foldl (fun t q => lodashSet t q (f q)) t) p = resolve t p := by
  intro L
  induction L with
  | nil => intro t f p _ _; rfl
  | cons q L ih =>
      intro t f p hdiv hres
      obtain ⟨pre, a, b, p', q', hp, hq, hne, hkind⟩ := hdiv q (by simp)
      subst hp
      subst hq
      have hstep : resolve (lodashSet t (pre ++ b :: q')
          (f (pre ++ b :: q'))) (pre ++ a :: p') = resolve t (pre ++ a :: p') :=
        resolve_lodashSet_diverge pre p' q' _ hne hres
      rw [List.foldl_cons]
      rw [ih (lodashSet t (pre ++ b :: q') (f (pre ++ b :: q'))) f _
        (fun r hr => hdiv r (by simp [hr])) (by rw [hstep]; exact hres)]
      exact hstep

/-- Re-writing every leaf path of a family of pairwise-diverging, defined,
fitting paths: after the fold, every path in the family reads back its
source value. -/
theorem resolve_foldl_restore : ∀ (L : List (List String)) (t src : JVal),
    (∀ p ∈ L, p ≠ [] ∧ resolve src p ≠ .undef) →
    L.Pairwise Diverge →
    (∀ p ∈ L, pathFits t p = true) →
    objLike t = true →
    ∀ p ∈ L,
      resolve (L.foldl (fun t q => lodashSet t q (resolve src q)) t) p
        = resolve src p := by
  intro L
  induction L with
  | nil => intro t src _ _ _ _ p hp; simp at hp
  | cons q L ih =>
      intro t src hdef hpw hfits hobj p hp
      rw [List.foldl_cons]
      have hqne : q ≠ [] := (hdef q (by simp)).1
      have hqdef : resolve src q ≠ .undef := (hdef q (by simp)).2
      have hqfits : pathFits t q = true := hfits q (by simp)
      have hround : resolve (lodashSet t q (resolve src q)) q = resolve src q :=
        resolve_lodashSet_self q (resolve src q) hobj hqfits hqne
      have hdivq : ∀ r ∈ L, Diverge q r := (List.pairwise_cons.mp hpw).1
      rcases List.mem_cons.mp hp with heq | hpL
      · rw [heq]
        rw [resolve_foldl_preserve L (lodashSet t q (resolve src q))
          (fun r => resolve src r) q hdivq (by rw [hround]; exact hqdef)]
        exact hround
      · refine ih (lodashSet t q (resolve src q)) src
          (fun r hr => hdef r (by simp [hr]))
          (List.pairwise_cons.mp hpw).2
          ?_ (objLike_lodashSet hobj q _) p hpL
        intro r hr
        obtain ⟨pre, a, b, r', q', hr1, hq1, hne, hkind⟩ :=
          Diverge_symm (hdivq r hr)
        rw [hr1, hq1]
        apply pathFits_lodashSet_diverge pre r' q' _ hne hkind
        rw [← hr1]
        exact hfits r (by simp [hr])

end UseFormPath

namespace UseFormPath

theorem foldl_proj {σ α β : Type} (g : σ → β) (f : σ → α → σ)
    (h : ∀ s x, g (f s x) = g s) : ∀ (L : List α) (s : σ), g (L.foldl f s) = g s := by
  intro L
  induction L with
  | nil => intro s; rfl
  | cons x L ih =>
      intro s
      rw [List.foldl_cons, ih, h]

theorem mergeContextErrors_formValue (path : String) (EO : JVal) (s : FormState) :
    (mergeContextErrors path EO s).formValue = s.formValue := by
  unfold mergeContextErrors
  apply foldl_proj
  intro s x
  rfl

theorem mergeContextErrors_formDirty (path : String) (EO : JVal) (s : FormState) :
    (mergeContextErrors path EO s).formDirty = s.formDirty := by
  unfold mergeContextErrors
  apply foldl_proj
  intro s x
  rfl

theorem mergeContextErrors_initState (path : String) (EO : JVal) (s : FormState) :
    (mergeContextErrors path EO s).initState = s.initState := by
  unfold mergeContextErrors
  apply foldl_proj
  intro s x
  rfl

theorem mergeContextErrors_localValidators (path : String) (EO : JVal) (s : FormState) :
    (mergeContextErrors path EO s).localValidators = s.localValidators := by
  unfold mergeContextErrors
  apply foldl_proj
  intro s x
  rfl

theorem mergeContextErrors_formUniqueIds (path : String) (EO : JVal) (s : FormState) :
    (mergeContextErrors path EO s).formUniqueIds = s.formUniqueIds := by
  unfold mergeContextErrors
  apply foldl_proj
  intro s x
  rfl

theorem mergeContextErrors_forceUpdates (path : String) (EO : JVal) (s : FormState) :
    (mergeContextErrors path EO s).forceUpdates = s.forceUpdates := by
  unfold mergeContextErrors
  apply foldl_proj
  intro s x
  rfl

theorem mergeContextErrors_forceUpdatesByPath (path : String) (EO : JVal) (s : FormState) :
    (mergeContextErrors path EO s).forceUpdatesByPath = s.forceUpdatesByPath := by
  unfold mergeContextErrors
  apply foldl_proj
  intro s x
  rfl

theorem setFormValue_formValue (cv : Option (JVal → JVal → JVal))
    (s : FormState) (p : String) (v : JVal) :
    (setFormValue cv s p v).1.formValue = lodashSet s.formValue (toPath p) v := by
  cases cv with
  | none =>
      simp only [setFormValue]
      split <;> rfl
  | some f =>
      simp only [setFormValue]
      split <;> (dsimp only []; rw [mergeContextErrors_formValue]; rfl)

theorem setFormValue_formDirty (cv : Option (JVal → JVal → JVal))
    (s : FormState) (p : String) (v : JVal) :
    (setFormValue cv s p v).1.formDirty = s.formDirty := by
  cases cv with
  | none =>
      simp only [setFormValue]
      split <;> rfl
  | some f =>
      simp only [setFormValue]
      split <;> (dsimp only []; rw [mergeContextErrors_formDirty]; rfl)

theorem setFormValue_initState (cv : Option (JVal → JVal → JVal))
    (s : FormState) (p : String) (v : JVal) :
    (setFormValue cv s p v).1.initState = s.initState := by
  cases cv with
  | none =>
      simp only [setFormValue]
      split <;> rfl
  | some f =>
      simp only [setFormValue]
      split <;> (dsimp only []; rw [mergeContextErrors_initState]; rfl)

theorem setFormValue_localValidators (cv : Option (JVal → JVal → JVal))
    (s : FormState) (p : String) (v : JVal) :
    (setFormValue cv s p v).1.localValidators = s.localValidators := by
  cases cv with
  | none =>
      simp only [setFormValue]
      split <;> rfl
  | some f =>
      simp only [setFormValue]
      split <;> (dsimp only []; rw [mergeContextErrors_localValidators]; rfl)

theorem setFormValue_forceUpdatesByPath (cv : Option (JVal → JVal → JVal))
    (s : FormState) (p : String) (v : JVal) :
    (setFormValue cv s p v).1.forceUpdatesByPath = s.forceUpdatesByPath := by
  cases cv with
  | none =>
      simp only [setFormValue]
      split <;> rfl
  | some f =>
      simp only [setFormValue]
      split <;> (dsimp only []; rw [mergeContextErrors_forceUpdatesByPath]; rfl)

theorem setFormValue_forceUpdates (cv : Option (JVal → JVal → JVal))
    (s : FormState) (p : String) (v : JVal) :
    (setFormValue cv s p v).1.forceUpdates = s.forceUpdates := by
  cases cv with
  | none =>
      simp only [setFormValue]
      split <;> rfl
  | some f =>
      simp only [setFormValue]
      split <;> (dsimp only []; rw [mergeContextErrors_forceUpdates]; rfl)

theorem setFormValue_formUniqueIds (cv : Option (JVal → JVal → JVal))
    (s : FormState) (p : String) (v : JVal) :
    (setFormValue cv s p v).1.formUniqueIds = s.formUniqueIds := by
  cases cv with
  | none =>
      simp only [setFormValue]
      split <;> rfl
  | some f =>
      simp only [setFormValue]
      split <;> (dsimp only []; rw [mergeContextErrors_formUniqueIds]; rfl)

/-- jsx:123 is the last write of `setFormValue`: the validity flag always
leaves matching the invalid path set. -/
theorem setFormValue_establishes (cv : Option (JVal → JVal → JVal))
    (s : FormState) (p : String) (v : JVal) :
    (setFormValue cv s p v).1.formValid
      = ((setFormValue cv s p v).1.invalidPathSet.card == 0) := rfl

end UseFormPath

namespace UseFormPath

theorem foldl_inv {σ α : Type} (P : σ → Prop) (f : σ → α → σ)
    (h : ∀ s x, P s → P (f s x)) : ∀ (L : List α) (s : σ), P s → P (L.foldl f s) := by
  intro L
  induction L with
  | nil => intro s hs; exact hs
  | cons x L ih =>
      intro s hs
      rw [List.foldl_cons]
      exact ih (f s x) (h s x hs)

/-- The inductive invariant behind the amended claim: the validity flag
mirrors the emptiness of the invalid path set. -/
def ValidInv (s : FormState) : Prop :=
  s.formValid = (s.invalidPathSet.card == 0)

theorem validInv_initFormState (init : JVal) : ValidInv (initFormState init) := rfl

theorem validInv_setFormDirty {s : FormState} (h : ValidInv s)
    (p : String) (v : JVal) : ValidInv (setFormDirty s p v) := h

theorem validInv_subscribeStore (cv : Option (JVal → JVal → JVal))
    {s : FormState} (h : ValidInv s) (p : String) (va : VArg (JVal → JVal)) :
    ValidInv (subscribeStore cv s p va) := by
  unfold subscribeStore
  dsimp only []
  split
  · exact h
  · exact setFormValue_establishes cv _ p _

theorem setAllFormDirty_proj {β : Type} (g : FormState → β)
    (h : ∀ (s : FormState) (path : String) (v : JVal), g (setFormDirty s path v) = g s)
    (s : FormState) (b : Bool) : g (setAllFormDirty s b).1 = g s := by
  unfold setAllFormDirty
  refine foldl_proj (fun (acc : FormState × List Nat) => g acc.1) _ ?_ _ _
  intro acc x
  exact h acc.1 x (.bool b)

theorem validInv_setAllFormDirty {s : FormState} (h : ValidInv s) (b : Bool) :
    ValidInv (setAllFormDirty s b).1 := by
  unfold ValidInv
  rw [setAllFormDirty_proj FormState.formValid (fun _ _ _ => rfl) s b,
    setAllFormDirty_proj FormState.invalidPathSet (fun _ _ _ => rfl) s b]
  exact h

theorem validInv_initializeStore (cv : Option (JVal → JVal → JVal))
    {s : FormState} (h : ValidInv s) (nfs : JVal) (r k : Bool) :
    ValidInv (initializeStore cv s nfs r k).1 := by
  unfold initializeStore
  dsimp only []
  have hfold : ∀ (L : List String) (acc : FormState × List Nat), ValidInv acc.1 →
      ValidInv (L.foldl (fun (acc : FormState × List Nat) path =>
        ((setFormValue cv acc.1 path (lodashGet nfs (toPath path) .undef)).1,
          acc.2 ++ (setFormValue cv acc.1 path (lodashGet nfs (toPath path) .undef)).2))
        acc).1 := by
    intro L
    refine foldl_inv (fun (acc : FormState × List Nat) => ValidInv acc.1) _ ?_ L
    intro acc x _
    exact setFormValue_establishes cv acc.1 x _
  split
  · exact hfold _ _ (by split <;> exact h)
  · exact validInv_setAllFormDirty (hfold _ _ (by split <;> exact h)) false

theorem validInv_runOp (cv : Option (JVal → JVal → JVal)) {s : FormState}
    (h : ValidInv s) (op : FormOp) : ValidInv (runOp cv s op) := by
  cases op with
  | setValueOp p v => exact setFormValue_establishes cv s p v
  | setDirtyOp p v => exact validInv_setFormDirty h p v
  | subscribeOp p va => exact validInv_subscribeStore cv h p va
  | initializeOp t r k => exact validInv_initializeStore cv h t r k
  | resetOp => exact validInv_initializeStore cv h s.initState false false
  | submitOp => exact validInv_setAllFormDirty h true
  | arrayPushOp p v =>
      show ValidInv (arrayPush cv s p v).1
      unfold arrayPush
      dsimp only []
      split
      · exact setFormValue_establishes cv s _ v
      · exact h
  | arrayRemoveOp p i =>
      show ValidInv (runOp cv s (.arrayRemoveOp p i))
      unfold runOp
      dsimp only []
      split
      · rename_i r heq
        unfold arrayRemove at heq
        dsimp only [] at heq
        split at heq
        · cases heq
          exact h
        · cases heq
      · exact h

/-- CLAIM C1 (amended): after any sequence of public store operations from
a freshly constructed provider, the global validity flag returned by
`getValid()` equals the invalid path set being empty.  (The other half of
the original claim - that the set is exactly the truthy-error paths - is
refuted by a separate counterexample.) -/
theorem c1_valid_iff_invalidPathSet_empty (cv : Option (JVal → JVal → JVal))
    (init : JVal) (ops : List FormOp) :
    (getFormValid (ops.foldl (runOp cv) (initFormState init)) = true
      ↔ (ops.foldl (runOp cv) (initFormState init)).invalidPathSet = ∅) := by
  have hinv : ValidInv (ops.foldl (runOp cv) (initFormState init)) :=
    foldl_inv ValidInv (runOp cv) (fun s x hs => validInv_runOp cv hs x) ops
      (initFormState init) (validInv_initFormState init)
  unfold ValidInv at hinv
  show (ops.foldl (runOp cv) (initFormState init)).formValid = true ↔ _
  rw [hinv]
  constructor
  · intro hcard
    have : (ops.foldl (runOp cv) (initFormState init)).invalidPathSet.card = 0 := by
      simpa using hcard
    exact Finset.card_eq_zero.mp this
  · intro hempty
    rw [hempty]
    rfl

end UseFormPath

namespace UseFormPath

theorem lodashGet_eq_resolve {t : JVal} {segs : List String} (hs : segs ≠ [])
    (hr : resolve t segs ≠ .undef) (d : JVal) : lodashGet t segs d = resolve t segs := by
  unfold lodashGet
  rw [if_neg (by simpa using hs)]
  split
  · rename_i heq
    exact absurd heq hr
  · rfl

theorem lodashGet_eq_dflt {t : JVal} {segs : List String} (d : JVal)
    (h : resolve t segs = .undef) : lodashGet t segs d = d := by
  unfold lodashGet
  by_cases hs : segs.isEmpty
  · rw [if_pos hs]
  · rw [if_neg hs]
    split
    · rfl
    · rename_i hne heq
      exact absurd h heq

theorem lodashGet_arr {t : JVal} {segs : List String} {xs : List JVal}
    (h : lodashGet t segs .undef = .arr xs) :
    segs ≠ [] ∧ resolve t segs = .arr xs := by
  have hs : segs ≠ [] := by
    intro he
    subst he
    exact absurd h (by simp [lodashGet])
  refine ⟨hs, ?_⟩
  by_cases hu : resolve t segs = .undef
  · rw [lodashGet_eq_dflt _ hu] at h
    exact absurd h (by simp)
  · rw [lodashGet_eq_resolve hs hu] at h
    exact h

end UseFormPath

namespace UseFormPath

theorem pullAtTree_get {t : JVal} {segs : List String} {xs : List JVal}
    (h : lodashGet t segs .undef = .arr xs) (i : Nat) :
    lodashGet (pullAtTree t segs i) segs .undef = .arr (xs.eraseIdx i) := by
  obtain ⟨hs, hres⟩ := lodashGet_arr h
  unfold pullAtTree
  rw [h]
  show lodashGet (lodashSet t segs (.arr (xs.eraseIdx i))) segs .undef = _
  have hr := resolve_lodashSet_of_resolved
    (show resolve t segs ≠ .undef by rw [hres]; simp) hs (JVal.arr (xs.eraseIdx i))
  rw [lodashGet_eq_resolve hs (by rw [hr]; simp) .undef, hr]

end UseFormPath

namespace UseFormPath

/-- CLAIM C6: with an array at the path, `arrayRemove` succeeds, removes the
indexed element from each of the four trees that hold an array at that path
(shifting the later indices down by one, `List.eraseIdx`), and fires exactly
the path-scoped observers; with no array at the path it throws. -/
theorem c6_arrayRemove_spec (s : FormState) (path : String) (i : Nat) :
    (∀ vs : List JVal,
      lodashGet s.formValue (toPath path) .undef = .arr vs → i < vs.length →
      ∃ s' tr, arrayRemove s path i = .ok (s', tr)
        ∧ lodashGet s'.formValue (toPath path) .undef = .arr (vs.eraseIdx i)
        ∧ (∀ es, lodashGet s.formError (toPath path) .undef = .arr es →
            lodashGet s'.formError (toPath path) .undef = .arr (es.eraseIdx i))
        ∧ (∀ ds, lodashGet s.formDirty (toPath path) .undef = .arr ds →
            lodashGet s'.formDirty (toPath path) .undef = .arr (ds.eraseIdx i))
        ∧ (∀ ids, lodashGet s.formUniqueIds (toPath path) .undef = .arr ids →
            lodashGet s'.formUniqueIds (toPath path) .undef = .arr (ids.eraseIdx i))
        ∧ tr = s.forceUpdatesByPath path)
    ∧ ((∀ vs : List JVal, lodashGet s.formValue (toPath path) .undef ≠ .arr vs) →
        arrayRemove s path i = .error "You are not removing from an array: %s") := by
  constructor
  · intro vs hv hi
    refine ⟨{ s with
        formValue := pullAtTree s.formValue (toPath path) i
        formError := pullAtTree s.formError (toPath path) i
        formDirty := pullAtTree s.formDirty (toPath path) i
        formUniqueIds := pullAtTree s.formUniqueIds (toPath path) i },
      s.forceUpdatesByPath path, ?_, ?_, ?_, ?_, ?_, rfl⟩
    · unfold arrayRemove
      rw [hv]
    · exact pullAtTree_get hv i
    · intro es he; exact pullAtTree_get he i
    · intro ds hd; exact pullAtTree_get hd i
    · intro ids hu; exact pullAtTree_get hu i
  · intro hnot
    unfold arrayRemove
    dsimp only []
    split
    · rename_i xs heq
      exact absurd heq (hnot xs)
    · rfl

/-- CLAIM C6, witness: removing index 1 of a three-element array shifts the
value and error trees in lockstep, and removing from a non-array path
throws. -/
theorem c6_arrayRemove_witness :
    (∃ s' tr,
      arrayRemove
        { initFormState (.obj [("items", .arr [.str "a", .str "b", .str "c"])]) with
            formError := .obj [("items", .arr [.str "e0", .str "e1", .str "e2"])] }
        "items" 1 = .ok (s', tr)
      ∧ lodashGet s'.formValue (toPath "items") .undef = .arr [.str "a", .str "c"]
      ∧ lodashGet s'.formError (toPath "items") .undef = .arr [.str "e0", .str "e2"]
      ∧ tr = [])
    ∧ arrayRemove (initFormState (.obj [("x", .num 1)])) "x" 0
        = .error "You are not removing from an array: %s" := by
  constructor
  · obtain ⟨s', tr, hok, hval, herr, -, -, htr⟩ :=
      (c6_arrayRemove_spec
        { initFormState (.obj [("items", .arr [.str "a", .str "b", .str "c"])]) with
            formError := .obj [("items", .arr [.str "e0", .str "e1", .str "e2"])] }
        "items" 1).1 [.str "a", .str "b", .str "c"] rfl (by decide)
    refine ⟨s', tr, hok, ?_, ?_, ?_⟩
    · rw [hval]; rfl
    · rw [herr [.str "e0", .str "e1", .str "e2"] rfl]; rfl
    · rw [htr]; rfl
  · exact (c6_arrayRemove_spec (initFormState (.obj [("x", .num 1)])) "x" 0).2
      (fun vs h => by
        rw [show lodashGet (initFormState (.obj [("x", .num 1)])).formValue
            (toPath "x") .undef = .num 1 from rfl] at h
        exact absurd h (by simp))

end UseFormPath


namespace UseFormPath

theorem setFormValue_formError_none (s : FormState) (p : String) (v : JVal) :
    (setFormValue none s p v).1.formError
      = lodashSet s.formError (toPath p) (localErrorMessage s p v) := by
  simp only [setFormValue]
  split <;> rfl

/-- CLAIM C8 (amended): writing a defined value at a non-empty, well-formed
path that fits the current tree is read back by `getValue` at that path. -/
theorem c8_set_get_roundtrip (cv : Option (JVal → JVal → JVal)) (s : FormState)
    (p : String) (v : JVal) (h1 : toPath p ≠ [])
    (h2 : objLike s.formValue = true)
    (h3 : pathFits s.formValue (toPath p) = true) (h4 : v ≠ .undef) :
    getFormValues (setFormValue cv s p v).1 p = v := by
  have hpne : p ≠ "" := by
    intro he
    subst he
    exact h1 rfl
  unfold getFormValues
  rw [if_neg (by simpa [String.isEmpty_iff] using hpne)]
  rw [setFormValue_formValue]
  have hr : resolve (lodashSet s.formValue (toPath p) v) (toPath p) = v :=
    resolve_lodashSet_self (toPath p) v h2 h3 h1
  rw [lodashGet_eq_resolve h1 (by rw [hr]; exact h4) _, hr]

/-- CLAIM C8, witness. -/
theorem c8_set_get_witness :
    toPath "a" ≠ []
    ∧ objLike (initFormState (.obj [("a", .num 1)])).formValue = true
    ∧ pathFits (initFormState (.obj [("a", .num 1)])).formValue (toPath "a") = true
    ∧ JVal.num 2 ≠ .undef
    ∧ getFormValues
        (setFormValue none (initFormState (.obj [("a", .num 1)])) "a" (.num 2)).1 "a"
      = .num 2 := by
  refine ⟨by decide, rfl, rfl, by simp, ?_⟩
  exact c8_set_get_roundtrip none (initFormState (.obj [("a", .num 1)])) "a"
    (.num 2) (by decide) rfl rfl (by simp)

/-- CLAIM C8, counterexample: `setValue(p, undefined)` is not read back -
`getValue(p)` yields lodash's default `''`. -/
theorem c8_undefined_counterexample :
    getFormValues
      (setFormValue none (initFormState (.obj [("a", .num 1)])) "a" .undef).1 "a"
      = .str ""
    ∧ JVal.str "" ≠ JVal.undef := ⟨rfl, by simp⟩

end UseFormPath

namespace UseFormPath

/-- CLAIM C1, counterexample: one public `setValue` on a fresh store whose
context validator reports an error at path `b` leaves `ErrorTree['b']`
truthy while `b` is not a member of the invalid path set - the set is even
empty and `getValid()` is `true` (jsx:108 adds the set path, not the
enumerated error path, and the path being set has no error of its own). -/
theorem c1_invalidPathSet_counterexample :
    truthy (getFormError (runOp (some (fun _ _ => .obj [("b", .str "bad")]))
        (initFormState (.obj [])) (.setValueOp "a" (.num 1))) "b") = true
    ∧ ("b" : String) ∉ (runOp (some (fun _ _ => .obj [("b", .str "bad")]))
        (initFormState (.obj [])) (.setValueOp "a" (.num 1))).invalidPathSet
    ∧ getFormValid (runOp (some (fun _ _ => .obj [("b", .str "bad")]))
        (initFormState (.obj [])) (.setValueOp "a" (.num 1))) = true := by
  refine ⟨rfl, ?_, rfl⟩
  decide

/-- CLAIM C3: evaluation at the failing input.  With the context validator
`() => ({b: 'bad'})`, `setValue('a', 1)` writes the merged message into the
error tree at the merged leaf path `b`, but the invalid path set ends empty:
jsx:108 adds `path` (here `'a'`), not `errorPath`, and `'a'` is removed
again by the falsy-error recomputation at jsx:113-120. -/
theorem c3_merged_path_not_marked :
    getFormError (runOp (some (fun _ _ => .obj [("b", .str "bad")]))
        (initFormState (.obj [])) (.setValueOp "a" (.num 1))) "b" = .str "bad"
    ∧ (runOp (some (fun _ _ => .obj [("b", .str "bad")]))
        (initFormState (.obj [])) (.setValueOp "a" (.num 1))).invalidPathSet
      = ∅ := by
  refine ⟨rfl, ?_⟩
  decide

/-- CLAIM C2: evaluation at the failing input.  `keyify({k: [{b: 1}]})`
produces the dot-separated decimal-index path `k.0.b`, not the bracketed
`k[0].b`: the bracket-building `forEach` branch (jsx:17-22) discards its
callback results, and the non-empty array falls through to the object
branch. -/
theorem c2_keyify_dot_not_bracket :
    keyify (.obj [("k", .arr [.obj [("b", .num 1)]])]) "" = ["k.0.b"]
    ∧ ("k.0.b" : String) ≠ "k[0].b" := by
  refine ⟨rfl, ?_⟩
  decide

/-- CLAIM C9: `keyify({a: {b: 1}, c: []})` enumerates exactly `a.b` - the
empty array contributes nothing, and likewise an empty object. -/
theorem c9_keyify_empty_containers :
    keyify (.obj [("a", .obj [("b", .num 1)]), ("c", .arr [])]) "" = ["a.b"]
    ∧ keyify (.obj [("a", .obj [("b", .num 1)]), ("c", .obj [])]) "" = ["a.b"] :=
  ⟨rfl, rfl⟩

theorem registerElems_throws_iff {F : Type} :
    ∀ (es : List (Option F)) (c : String → List F) (path : String),
    (registerElems c path es).2 = true ↔ none ∈ es := by
  intro es
  induction es with
  | nil => intro c path; simp [registerElems]
  | cons e es ih =>
      intro c path
      cases e with
      | none => simp [registerElems]
      | some f =>
          rw [show registerElems c path (some f :: es)
              = registerElems (pushValidator c path f) path es from rfl]
          rw [ih (pushValidator c path f) path]
          simp

/-- CLAIM C5 (amended): registration throws exactly when `validate` is a
non-empty array containing a non-function entry; a bare function is pushed;
an empty array or a non-function, non-array value of either truthiness is
silently ignored, with no error. -/
theorem c5_registration_behaviour {F : Type} (c : String → List F)
    (path : String) :
    (∀ v : VArg F, ((registerValidate c path v).2 = true
        ↔ ∃ es, v = VArg.list es ∧ es ≠ [] ∧ none ∈ es))
    ∧ (∀ f : F, registerValidate c path (VArg.fn f)
        = (pushValidator c path f, false))
    ∧ (∀ b : Bool, registerValidate c path (VArg.scalar b) = (c, false)) := by
  refine ⟨?_, fun f => rfl, fun b => rfl⟩
  intro v
  cases v with
  | fn f => simp [registerValidate]
  | scalar b => simp [registerValidate]
  | list es =>
      by_cases he : es.isEmpty
      · rw [show registerValidate c path (VArg.list es) = (c, false) from by
          simp [registerValidate, he]]
        simp only [Bool.false_eq_true, false_iff]
        rintro ⟨es', heq, hne, -⟩
        obtain rfl : es = es' := by
          injection heq
        exact hne (by simpa [List.isEmpty_iff] using he)
      · rw [show registerValidate c path (VArg.list es) = registerElems c path es
            from by simp [registerValidate, he]]
        rw [registerElems_throws_iff es c path]
        constructor
        · intro h
          exact ⟨es, rfl, by simpa [List.isEmpty_iff] using he, h⟩
        · rintro ⟨es', heq, -, hmem⟩
          obtain rfl : es = es' := by
            injection heq
          exact hmem

/-- CLAIM C5, counterexample: a non-function, non-array `validate` (for
example a truthy string) is silently ignored at registration time - no
error is thrown and nothing is registered. -/
theorem c5_scalar_counterexample :
    (registerValidate (fun _ => ([] : List (JVal → JVal))) "a"
      (VArg.scalar true)).2 = false
    ∧ (registerValidate (fun _ => ([] : List (JVal → JVal))) "a"
      (VArg.scalar true)).1 "a" = [] := ⟨rfl, rfl⟩

end UseFormPath

namespace UseFormPath

theorem removeValidator_sub {F : Type} [DecidableEq F]
    (c : String → List F) (path : String) (f : F) (p : String) (x : F)
    (h : x ∈ removeValidator c path f p) : x ∈ c p := by
  by_cases hp : p = path
  · subst hp
    rw [removeValidator, Function.update_same] at h
    exact (List.mem_filter.mp h).1
  · rwa [removeValidator, Function.update_noteq hp] at h

theorem disposeElems_sub {F : Type} [DecidableEq F] :
    ∀ (es : List (Option F)) (c : String → List F) (path p : String) (x : F),
    x ∈ disposeElems c path es p → x ∈ c p := by
  intro es
  induction es with
  | nil => intro c path p x h; exact h
  | cons e es ih =>
      intro c path p x h
      cases e with
      | none => exact ih c path p x h
      | some f =>
          exact removeValidator_sub c path f p x
            (ih (removeValidator c path f) path p x h)

theorem removeValidator_not_mem {F : Type} [DecidableEq F]
    (c : String → List F) (path : String) (f : F) :
    f ∉ removeValidator c path f path := by
  rw [removeValidator, Function.update_same]
  simp [List.mem_filter]

theorem disposeElems_removes {F : Type} [DecidableEq F] :
    ∀ (es : List (Option F)) (c : String → List F) (path : String) (f : F),
    some f ∈ es → f ∉ disposeElems c path es path := by
  intro es
  induction es with
  | nil => intro c path f h; exact absurd h (List.not_mem_nil _)
  | cons e es ih =>
      intro c path f h hmem
      rcases List.mem_cons.mp h with heq | htail
      · obtain rfl : e = some f := heq.symm
        rw [show disposeElems c path (some f :: es)
            = disposeElems (removeValidator c path f) path es from rfl] at hmem
        exact removeValidator_not_mem c path f
          (disposeElems_sub es (removeValidator c path f) path path f hmem)
      · cases e with
        | none => exact ih c path f htail hmem
        | some g => exact ih (removeValidator c path g) path f htail hmem

theorem disposeElems_other {F : Type} [DecidableEq F] :
    ∀ (es : List (Option F)) (c : String → List F) (path p : String),
    p ≠ path → disposeElems c path es p = c p := by
  intro es
  induction es with
  | nil => intro c path p _; rfl
  | cons e es ih =>
      intro c path p hp
      cases e with
      | none => exact ih c path p hp
      | some f =>
          rw [show disposeElems c path (some f :: es)
              = disposeElems (removeValidator c path f) path es from rfl]
          rw [ih (removeValidator c path f) path p hp]
          rw [removeValidator, Function.update_noteq hp]

/-- CLAIM C10: the disposer removes, by identity, every stored occurrence of
each function it is given - a bare function is filtered out of the path's
list entirely (so a doubly registered function loses both copies), an array
argument removes each of its function entries the same way; disposing a
function that is absent is a no-op returning the container unchanged; and
for every argument the disposer leaves every other path's list untouched. -/
theorem c10_disposer_spec {F : Type} [DecidableEq F]
    (c : String → List F) (path : String) :
    (∀ f : F, (disposeValidate c path (VArg.fn f)) path
        = (c path).filter (fun g => g != f))
    ∧ (∀ (es : List (Option F)) (f : F), some f ∈ es →
        f ∉ (disposeValidate c path (VArg.list es)) path)
    ∧ (∀ f : F, f ∉ c path → disposeValidate c path (VArg.fn f) = c)
    ∧ (∀ (v : VArg F) (p : String), p ≠ path →
        (disposeValidate c path v) p = c p) := by
  refine ⟨?_, ?_, ?_, ?_⟩
  · intro f
    rw [show disposeValidate c path (VArg.fn f) = removeValidator c path f
        from rfl]
    rw [removeValidator, Function.update_same]
  · intro es f hmem
    have hne : ¬es.isEmpty := by
      cases es with
      | nil => exact absurd hmem (List.not_mem_nil _)
      | cons e es => simp
    rw [show disposeValidate c path (VArg.list es) = disposeElems c path es
        from by simp [disposeValidate, hne]]
    exact disposeElems_removes es c path f hmem
  · intro f hf
    funext p
    by_cases hp : p = path
    · subst hp
      rw [show disposeValidate c p (VArg.fn f) = removeValidator c p f
          from rfl]
      rw [removeValidator, Function.update_same]
      exact List.filter_eq_self.mpr (fun g hg => by
        simp only [bne_iff_ne, ne_eq]
        exact fun h => hf (h ▸ hg))
    · rw [show disposeValidate c path (VArg.fn f) = removeValidator c path f
          from rfl]
      rw [removeValidator, Function.update_noteq hp]
  · intro v p hp
    cases v with
    | fn f => rw [show disposeValidate c path (VArg.fn f)
          = removeValidator c path f from rfl,
        removeValidator, Function.update_noteq hp]
    | scalar b => rfl
    | list es =>
        by_cases he : es.isEmpty
        · rw [show disposeValidate c path (VArg.list es) = c from by
            simp [disposeValidate, he]]
        · rw [show disposeValidate c path (VArg.list es)
              = disposeElems c path es from by simp [disposeValidate, he]]
          exact disposeElems_other es c path p hp

theorem c10_disposer_witness :
    ((0 : Nat) ∉ (disposeValidate
        (fun q => if q = "a" then [0, 1, 0] else [2]) "a" (VArg.fn 0)) "a")
    ∧ (disposeValidate
        (fun q => if q = "a" then [0, 1, 0] else [2]) "a" (VArg.fn 0)) "b"
      = [2]
    ∧ disposeValidate
        (fun q => if q = "a" then [0, 1] else [2]) "a" (VArg.fn 5)
      = (fun q => if q = "a" then [0, 1] else [2])
    ∧ ((1 : Nat) ∉ (disposeValidate
        (fun q => if q = "a" then [0, 1] else [2]) "a"
        (VArg.list [some 1, none])) "a") := by
  refine ⟨?_, ?_, ?_, ?_⟩
  · rw [(c10_disposer_spec (fun q => if q = "a" then [0, 1, 0] else [2])
      "a").1 0]
    decide
  · exact (c10_disposer_spec (fun q => if q = "a" then [0, 1, 0] else [2])
      "a").2.2.2 (VArg.fn 0) "b" (by decide)
  · exact (c10_disposer_spec (fun q => if q = "a" then [0, 1] else [2])
      "a").2.2.1 5 (by decide)
  · exact (c10_disposer_spec (fun q => if q = "a" then [0, 1] else [2])
      "a").2.1 [some 1, none] 1 (by simp)

end UseFormPath

namespace UseFormPath

/-- A finite sequence of public `setValue` calls (jsx:95) after
construction; only the state is tracked. -/
def runSetValues (cv : Option (JVal → JVal → JVal)) (s : FormState)
    (ops : List (String × JVal)) : FormState :=
  ops.foldl (fun s pv => (setFormValue cv s pv.1 pv.2).1) s

theorem foldl_congr_mem {σ α : Type} :
    ∀ (L : List α) (f g : σ → α → σ) (s : σ),
    (∀ x ∈ L, ∀ t, f t x = g t x) → L.foldl f s = L.foldl g s := by
  intro L
  induction L with
  | nil => intro f g s _; rfl
  | cons x L ih =>
      intro f g s h
      rw [List.foldl_cons, List.foldl_cons, h x (by simp) s]
      exact ih f g (g s x) (fun y hy t => h y (by simp [hy]) t)

theorem str_nil_append (s : String) : "" ++ s = s := by
  cases s
  rfl

theorem setAllFormDirty_empty {s : FormState} (h : s.formDirty = .obj [])
    (b : Bool) : setAllFormDirty s b = (s, []) := by
  unfold setAllFormDirty
  rw [h]
  rfl

/-- The value-writing fold of `initialize` (jsx:186-188), state part. -/
def initFold (cv : Option (JVal → JVal → JVal)) (init : JVal)
    (s1 : FormState) : FormState × List Nat :=
  (keyify init "").foldl
    (fun (acc : FormState × List Nat) path =>
      ((setFormValue cv acc.1 path (lodashGet init (toPath path) .undef)).1,
        acc.2 ++ (setFormValue cv acc.1 path
          (lodashGet init (toPath path) .undef)).2))
    (s1, [])

theorem initFold_proj {β : Type} (g : FormState → β)
    (h : ∀ (cv : Option (JVal → JVal → JVal)) (s : FormState) (p : String)
      (v : JVal), g (setFormValue cv s p v).1 = g s)
    (cv : Option (JVal → JVal → JVal)) (init : JVal) (s1 : FormState) :
    g (initFold cv init s1).1 = g s1 := by
  unfold initFold
  refine foldl_proj (fun (acc : FormState × List Nat) => g acc.1) _ ?_ _ _
  intro a x
  exact h cv a.1 x _

theorem initFoldAux_formValue (cv : Option (JVal → JVal → JVal)) (init : JVal) :
    ∀ (L : List String) (acc : FormState × List Nat),
    ((L.foldl
      (fun (acc : FormState × List Nat) path =>
        ((setFormValue cv acc.1 path (lodashGet init (toPath path) .undef)).1,
          acc.2 ++ (setFormValue cv acc.1 path
            (lodashGet init (toPath path) .undef)).2))
      acc).1).formValue
    = L.foldl
        (fun t path =>
          lodashSet t (toPath path) (lodashGet init (toPath path) .undef))
        acc.1.formValue := by
  intro L
  induction L with
  | nil => intro acc; rfl
  | cons p L ih =>
      intro acc
      rw [List.foldl_cons, List.foldl_cons, ih]
      congr 1
      exact setFormValue_formValue cv acc.1 p _

theorem initFold_formValue (cv : Option (JVal → JVal → JVal)) (init : JVal)
    (s1 : FormState) :
    (initFold cv init s1).1.formValue
      = (keyify init "").foldl
          (fun t path =>
            lodashSet t (toPath path) (lodashGet init (toPath path) .undef))
          s1.formValue :=
  initFoldAux_formValue cv init (keyify init "") (s1, [])

theorem initializeStore_reset (cv : Option (JVal → JVal → JVal))
    (s1 : FormState) (init : JVal) (hdirty : s1.formDirty = .obj []) :
    (initializeStore cv s1 init false false).1 = (initFold cv init s1).1 := by
  have hI : (initializeStore cv s1 init false false).1
      = (setAllFormDirty (initFold cv init s1).1 false).1 := rfl
  rw [hI, setAllFormDirty_empty (by
    rw [initFold_proj FormState.formDirty
      (fun cv s p v => setFormValue_formDirty cv s p v) cv init s1]
    exact hdirty) false]

/-- CLAIM C4 (amended): for a clean, object-like initial tree and any
sequence of `setValue` calls whose resulting value tree still fits every
leaf path of the snapshot, `reset()` re-writes exactly the enumerated leaf
paths of the stored snapshot: each such leaf reads back its original value,
the snapshot itself is unchanged, and the dirty tree (untouched by the
`setValue`s) stays empty.  Whole-tree deep equality does not follow: paths
written outside the snapshot's leaves survive `reset`, as a separate
counterexample shows. -/
theorem c4_reset_restores_init_leaves (cv : Option (JVal → JVal → JVal))
    (init : JVal) (ops : List (String × JVal))
    (hclean : cleanTree init = true)
    (hobj : objLike init = true)
    (hfits : ∀ p ∈ leafSegs init,
      pathFits (runSetValues cv (initFormState init) ops).formValue p = true) :
    (∀ p ∈ leafSegs init,
      resolve (resetStore cv
          (runSetValues cv (initFormState init) ops)).1.formValue p
        = resolve init p)
    ∧ (resetStore cv
        (runSetValues cv (initFormState init) ops)).1.initState = init
    ∧ (resetStore cv
        (runSetValues cv (initFormState init) ops)).1.formDirty = .obj [] := by
  have hs1init : (runSetValues cv (initFormState init) ops).initState = init := by
    unfold runSetValues
    refine foldl_proj (fun s : FormState => s.initState) _ ?_ ops (initFormState init)
    intro s pv
    exact setFormValue_initState cv s pv.1 pv.2
  have hs1dirty : (runSetValues cv (initFormState init) ops).formDirty
      = .obj [] := by
    unfold runSetValues
    refine foldl_proj (fun s : FormState => s.formDirty) _ ?_ ops (initFormState init)
    intro s pv
    exact setFormValue_formDirty cv s pv.1 pv.2
  have hs1obj : objLike (runSetValues cv (initFormState init) ops).formValue
      = true := by
    unfold runSetValues
    refine foldl_inv (fun s : FormState => objLike s.formValue = true) _ ?_ ops
      (initFormState init) hobj
    intro s pv hs
    rw [setFormValue_formValue]
    exact objLike_lodashSet hs _ _
  obtain ⟨s1, hs1⟩ : ∃ s1, runSetValues cv (initFormState init) ops = s1 :=
    ⟨_, rfl⟩
  rw [hs1] at hs1init hs1dirty hs1obj hfits ⊢
  have hreset : resetStore cv s1 = initializeStore cv s1 init false false := by
    unfold resetStore
    rw [hs1init]
  rw [hreset, initializeStore_reset cv s1 init hs1dirty]
  refine ⟨?_, ?_, ?_⟩
  · intro p hp
    rw [initFold_formValue cv init s1]
    have hval : (keyify init "").foldl
        (fun t path =>
          lodashSet t (toPath path) (lodashGet init (toPath path) .undef))
        s1.formValue
        = (leafSegs init).foldl (fun t q => lodashSet t q (resolve init q))
            s1.formValue := by
      rw [keyify_eq_leafSegs init "", List.foldl_map]
      apply foldl_congr_mem
      intro q hq t
      have hqs := leafSegs_spec init hclean q hq
      have hqne : q ≠ [] := leafSegs_ne init q hq
      have htp : toPath ("" ++ dotted q) = q := by
        rw [str_nil_append]
        exact toPath_dotted q hqs.2 hqne
      rw [htp, lodashGet_eq_resolve hqne hqs.1 .undef]
    rw [hval]
    exact resolve_foldl_restore (leafSegs init) s1.formValue init
      (fun q hq => ⟨leafSegs_ne init q hq, (leafSegs_spec init hclean q hq).1⟩)
      (leafSegs_pairwise init hclean) hfits hs1obj p hp
  · rw [initFold_proj FormState.initState
      (fun cv s p v => setFormValue_initState cv s p v) cv init s1]
    exact hs1init
  · rw [initFold_proj FormState.formDirty
      (fun cv s p v => setFormValue_formDirty cv s p v) cv init s1]
    exact hs1dirty

theorem c4_reset_witness :
    resolve (resetStore none (runSetValues none
        (initFormState (.obj [("a", .num 1)])) [("b", .num 2)])).1.formValue
        ["a"]
      = resolve (.obj [("a", .num 1)]) ["a"]
    ∧ (resetStore none (runSetValues none
        (initFormState (.obj [("a", .num 1)])) [("b", .num 2)])).1.initState
      = .obj [("a", .num 1)] := by
  have h := c4_reset_restores_init_leaves none (JVal.obj [("a", JVal.num 1)])
    [("b", JVal.num 2)] rfl rfl (by
      intro p hp
      rw [show leafSegs (JVal.obj [("a", JVal.num 1)]) = [["a"]] from rfl] at hp
      rw [List.mem_singleton] at hp
      subst hp
      rfl)
  exact ⟨h.1 ["a"] (by decide), h.2.1⟩

/-- CLAIM C4, counterexample: with initial value `{a: 1}`, a single
`setValue('b', 2)` followed by `reset()` leaves the whole value tree at
`{a: 1, b: 2}` - `reset` only re-writes the leaf paths enumerated from the
snapshot (here `a`) and never deletes the extra path `b`, so the tree is
not deep-equal to the original `initValue`. -/
theorem c4_reset_counterexample :
    getFormValues (resetStore none ((setFormValue none
        (initFormState (.obj [("a", .num 1)])) "b" (.num 2)).1)).1 ""
      = .obj [("a", .num 1), ("b", .num 2)]
    ∧ JVal.obj [("a", JVal.num 1), ("b", JVal.num 2)]
      ≠ JVal.obj [("a", JVal.num 1)] := by
  refine ⟨rfl, ?_⟩
  simp

end UseFormPath

namespace UseFormPath

/-- The shape of the value lodash `get` resolves inside the validator
registry: a list of functions, a single function (an index into a
registered list), or nothing. -/
inductive RegLookup (F : Type) where
  | list (fs : List F)
  | fn (f : F)
  | missing

/-- The full resolution of `get(localValidators.current, path, [])`
(jsx:86) through the raw-string-keyed registry.  lodash parses `path` into
segments and walks: one segment reads the registry key (an absent key and a
registered list are both list-shaped once the `[]` default applies); a
second, index-shaped segment within the list registered at the first
resolves to the single function stored there - the value whose `.reduce`
throws a TypeError in the source; an out-of-range index, a non-index second
segment, or any deeper walk (a property of a function) resolves to
`undefined` and falls back to the `[]` default.  Non-index own properties
of the registered arrays (such as `length`) are outside the model, as with
the value trees. -/
def regGet {F : Type} (c : String → List F) (path : String) : RegLookup F :=
  match toPath path with
  | [k] => .list (c k)
  | [k, n] =>
      if isIndexKey n then
        match (c k).get? (parseIdx n) with
        | some f => .fn f
        | none => .missing
      else .missing
  | _ => .missing

theorem lookupValidators_regGet (c : String → List (JVal → JVal))
    (path : String) :
    (∀ fs, regGet c path = .list fs → lookupValidators c path = fs)
    ∧ (regGet c path = .missing → lookupValidators c path = []) := by
  unfold regGet lookupValidators
  constructor
  · intro fs h
    split at h
    · rename_i k heq
      rw [heq]
      injection h with h
    · rename_i k n heq
      rw [heq]
      split at h
      · split at h
        · cases h
        · cases h
      · cases h
    · cases h
  · intro h
    split at h
    · rename_i k heq
      cases h
    · rename_i k n heq
      rw [heq]
    · rename_i hne1 hne2
      split
      · rename_i k heq
        exact absurd heq (hne1 k)
      · rfl

/-- CLAIM C7: evaluation at the failing inputs.  Two divergences from the
claim: (1) `arrayPush('items', 0)` with the falsy value `0` is skipped by
the `if (value)` guard (jsx:217), so the array keeps length 1 instead of
growing with `0` last; (2) on `items = []` the push path is `items[0]`,
and with one validator registered at the array's own path `items` the
registry lookup of jsx:86 resolves through the raw-keyed list to the
function itself, on which the source's `.reduce` throws a TypeError before
the error write and before the observer loop - so `arrayPush` neither
appends falsy values nor always fires the path-scoped observers. -/
theorem c7_arrayPush_bug :
    (getFormValues
        (arrayPush none (initFormState (.obj [("items", .arr [.str "a"])]))
          "items" (.num 0)).1 "items" = .arr [.str "a"]
      ∧ JVal.arr [.str "a"] ≠ .arr [.str "a", .num 0])
    ∧ "items" ++ "[" ++ natStr 0 ++ "]" = "items[0]"
    ∧ regGet
        (fun q => if q = "items" then [fun _ : JVal => JVal.str "required"] else [])
        "items[0]"
      = .fn (fun _ : JVal => JVal.str "required") :=
  ⟨⟨rfl, by simp⟩, rfl, rfl⟩

end UseFormPath
